import Mathlib

/-!
Verification development for the notiondown repository's two core subsystems:
the dependency-aware fetch cache (`src/notion/minimal.ts`, class `CacheClient`)
and the hierarchy tree builder (`src/hierarchy.ts`).

The TypeScript source is shallowly embedded: JS `Map`s become association
lists over `String` keys (JS maps never hold duplicate keys; `set` updates in
place, preserving iteration order, and inserts at the end otherwise), `Date`
values become `Nat` timestamps (validity only ever compares `getTime()`
results for equality), network responses become explicit values produced by a
`base` function, and the durable file-system mirror becomes an explicit
`Disk` list.  Recursive procedures that the source runs on possibly-cyclic,
incrementally built maps (`#findParent`, `allChildrenIds`, the cycle-breaking
DFS) are embedded with an explicit fuel parameter; fuel-sufficiency/stability
lemmas below show the chosen fuel reproduces the source's behaviour whenever
the source terminates.
-/

namespace Notiondown

/-! ## Association-list maps (embedding of JS `Map<string, α>`) -/

/-- `Map.get k` — first (unique) binding of `k`. -/
def aget {α : Type} (k : String) : List (String × α) → Option α
  | [] => none
  | (a, b) :: t => if a = k then some b else aget k t

/-- `Map.set k v` — update in place, else append (JS insertion-order map). -/
def aset {α : Type} (k : String) (v : α) : List (String × α) → List (String × α)
  | [] => [(k, v)]
  | (a, b) :: t => if a = k then (k, v) :: t else (a, b) :: aset k v t

/-- `Map.delete k` — remove the binding of `k` (keys are unique in a JS map,
so removing every binding of `k` is the same operation). -/
def adel {α : Type} (k : String) : List (String × α) → List (String × α)
  | [] => []
  | (a, b) :: t => if a = k then adel k t else (a, b) :: adel k t

@[simp] theorem aget_nil {α : Type} (k : String) : aget (α := α) k [] = none := rfl

theorem aget_cons {α : Type} (k a : String) (b : α) (t : List (String × α)) :
    aget k ((a, b) :: t) = if a = k then some b else aget k t := rfl

theorem aget_aset_self {α : Type} (k : String) (v : α) (m : List (String × α)) :
    aget k (aset k v m) = some v := by
  induction m with
  | nil => simp [aset, aget]
  | cons e t ih =>
    obtain ⟨a, b⟩ := e
    by_cases h : a = k
    · simp [aset, aget, h]
    · simp [aset, aget, h, ih]

theorem aget_aset_ne {α : Type} (k k' : String) (v : α) (m : List (String × α))
    (h : k ≠ k') : aget k' (aset k v m) = aget k' m := by
  induction m with
  | nil => simp [aset, aget, h]
  | cons e t ih =>
    obtain ⟨a, b⟩ := e
    by_cases ha : a = k
    · subst ha
      simp [aset, aget, h]
    · simp [aset, aget, ha, ih]

theorem aget_adel_self {α : Type} (k : String) (m : List (String × α)) :
    aget k (adel k m) = none := by
  induction m with
  | nil => simp [adel]
  | cons e t ih =>
    obtain ⟨a, b⟩ := e
    by_cases h : a = k
    · simpa [adel, h] using ih
    · simpa [adel, aget, h] using ih

theorem aget_adel_ne {α : Type} (k k' : String) (m : List (String × α))
    (h : k ≠ k') : aget k' (adel k m) = aget k' m := by
  induction m with
  | nil => simp [adel]
  | cons e t ih =>
    obtain ⟨a, b⟩ := e
    by_cases ha : a = k
    · subst ha
      simp [adel, aget, h, ih]
    · simp [adel, aget, ha, ih]

/-! ## Data model of the fetch cache -/

/-- One block of a `ListBlockChildrenResponse`: the cache only ever inspects
`id` and `has_children`. -/
structure Block where
  id : String
  hasChildren : Bool
deriving DecidableEq, Repr

/-- A `ListBlockChildrenResponse` (only the `results` array is inspected). -/
structure Resp where
  results : List Block
deriving DecidableEq, Repr

/-- In-memory state of `CacheClient` (the fields that the verified operations
touch; responses of the three unconditional caches are kept abstract as
`Nat` tags, their contents are never inspected). -/
structure CacheState where
  blockChildrenListCache : List (String × Resp) := []
  databaseCache : List (String × Nat) := []
  databaseQueryCache : List (String × Nat) := []
  pageCache : List (String × Nat) := []
  updatedAtMap : List (String × Nat) := []
  cacheUpdatedAtMap : List (String × Nat) := []
  parentMap : List (String × String) := []
deriving DecidableEq, Repr

/-- `cacheKey(id, cursor)` — `cursor ? id + "_" + cursor : id`. -/
def cacheKey (id : String) (cursor : Option String) : String :=
  match cursor with
  | some c => id ++ "_" ++ c
  | none => id

/-- `#findParent`, fuel-indexed: walk `parentMap` upward collecting visited
ids, return `none` on a circular reference, else the first node whose
recorded parent is absent or empty — the source tests the looked-up value
with JS truthiness (`if (!parent) return current`), so an empty-string
parent ends the walk at the child instead of being walked into.  The
source's `while (true)` loop always terminates because every iteration adds a
distinct key of the map to `ids`; `findParentF_stable` below shows any fuel
beyond that bound computes the same answer. -/
def findParentF (m : List (String × String)) : Nat → List String → String → Option String
  | 0, _, _ => none
  | fuel + 1, ids, current =>
    if current ∈ ids then none
    else
      match aget current m with
      | none => some current
      | some parent =>
        if parent = "" then some current
        else findParentF m fuel (current :: ids) parent

/-- `#findParent(id)` with the provably sufficient fuel. -/
def findParent (m : List (String × String)) (id : String) : Option String :=
  findParentF m (m.length + 1) [] id

/-- `#canUseCache(blockId)`: anchor found (and truthy — the source tests
`if (!parentId)`, so an empty-string anchor also misses), both timestamps
present, and exactly equal. -/
def canUseCache (s : CacheState) (blockId : String) : Bool :=
  match findParent s.parentMap blockId with
  | none => false
  | some anchor =>
    if anchor = "" then false
    else
      match aget anchor s.updatedAtMap, aget anchor s.cacheUpdatedAtMap with
      | some t1, some t2 => t1 = t2
      | _, _ => false

/-- The miss branch of `blocks.children.list`: fetch upstream, overwrite the
entry under `(blockId, cursor)`, record `cacheUpdatedAtMap[blockId]` from
`updatedAtMap[blockId]` when the latter exists (the source uses `blockId`
here, not the anchor), and extend the ParentIndex with every returned block
that has further children. -/
def fetchAndStore (base : String → Option String → Resp) (s : CacheState)
    (blockId : String) (cursor : Option String) : Resp × CacheState × Bool :=
  let res := base blockId cursor
  let cache' := aset (cacheKey blockId cursor) res s.blockChildrenListCache
  let cacheUpdatedAt' :=
    match aget blockId s.updatedAtMap with
    | some t => aset blockId t s.cacheUpdatedAtMap
    | none => s.cacheUpdatedAtMap
  let parentMap' :=
    res.results.foldl
      (fun pm b => if b.hasChildren then aset b.id blockId pm else pm)
      s.parentMap
  (res,
   { s with
      blockChildrenListCache := cache'
      cacheUpdatedAtMap := cacheUpdatedAt'
      parentMap := parentMap' },
   true)

/-- `blocks.children.list(args)`.  `base` is the wrapped upstream client;
the returned `Bool` records whether an upstream fetch was issued.  Durable
mirroring (`#writeCache`/`#writeMetaCache`) never influences an in-memory
read and is modelled at the operations the claims inspect (`loadCache`,
`purgeCache`, `purgeCacheById`). -/
def listChildren (base : String → Option String → Resp) (s : CacheState)
    (blockId : String) (cursor : Option String) : Resp × CacheState × Bool :=
  let hit :=
    if canUseCache s blockId then
      aget (cacheKey blockId cursor) s.blockChildrenListCache
    else none
  match hit with
  | some r => (r, s, false)
  | none => fetchAndStore base s blockId cursor

/-! ## Fuel sufficiency for the upward walk

`#findParent`'s loop terminates because each iteration moves a distinct key
of `parentMap` into the visited set.  `unseen` counts the keys not yet
visited; any fuel exceeding it yields the same result. -/

theorem aget_some_mem {α : Type} {k : String} {v : α} :
    ∀ {m : List (String × α)}, aget k m = some v → (k, v) ∈ m := by
  intro m
  induction m with
  | nil => simp [aget]
  | cons e t ih =>
    obtain ⟨a, b⟩ := e
    by_cases h : a = k
    · subst h
      simp [aget]
      intro hv
      exact Or.inl (by simp [hv])
    · intro hg
      rw [aget_cons, if_neg h] at hg
      exact List.mem_cons_of_mem _ (ih hg)

theorem filter_length_le {α : Type} (p q : α → Bool) :
    ∀ (l : List α), (∀ a ∈ l, q a = true → p a = true) →
      (l.filter q).length ≤ (l.filter p).length := by
  intro l
  induction l with
  | nil => simp
  | cons x t ih =>
    intro h
    have ht := ih (fun a ha => h a (List.mem_cons_of_mem _ ha))
    cases hq : q x with
    | true =>
      have hp := h x (List.mem_cons_self _ _) hq
      simp [List.filter_cons, hq, hp]
      exact ht
    | false =>
      cases hp : p x with
      | true => simp [List.filter_cons, hq, hp]; omega
      | false => simpa [List.filter_cons, hq, hp] using ht

theorem filter_length_lt {α : Type} (p q : α → Bool) :
    ∀ (l : List α), (∀ a ∈ l, q a = true → p a = true) →
      ∀ a ∈ l, p a = true → q a = false →
      (l.filter q).length < (l.filter p).length := by
  intro l
  induction l with
  | nil => simp
  | cons x t ih =>
    intro h a ha hpa hqa
    have ht := filter_length_le p q t (fun b hb => h b (List.mem_cons_of_mem _ hb))
    rcases List.mem_cons.mp ha with rfl | ha'
    · simp [List.filter_cons, hqa, hpa]
      omega
    · cases hq : q x with
      | true =>
        have hp := h x (List.mem_cons_self _ _) hq
        have := ih (fun b hb => h b (List.mem_cons_of_mem _ hb)) a ha' hpa hqa
        simp [List.filter_cons, hq, hp]
        omega
      | false =>
        have := ih (fun b hb => h b (List.mem_cons_of_mem _ hb)) a ha' hpa hqa
        cases hp : p x with
        | true => simp [List.filter_cons, hq, hp]; omega
        | false => simpa [List.filter_cons, hq, hp] using this

/-- Number of `parentMap` keys not yet in the visited set. -/
def unseen (m : List (String × String)) (ids : List String) : Nat :=
  (m.filter (fun e => decide (e.1 ∉ ids))).length

theorem unseen_pos {m : List (String × String)} {ids : List String}
    {cur p : String} (hget : aget cur m = some p) (hcur : cur ∉ ids) :
    0 < unseen m ids := by
  have hmem := aget_some_mem hget
  have : (cur, p) ∈ m.filter (fun e => decide (e.1 ∉ ids)) :=
    List.mem_filter.mpr ⟨hmem, by simpa using hcur⟩
  exact List.length_pos.mpr (List.ne_nil_of_mem this)

theorem unseen_lt {m : List (String × String)} {ids : List String}
    {cur p : String} (hget : aget cur m = some p) (hcur : cur ∉ ids) :
    unseen m (cur :: ids) < unseen m ids := by
  refine filter_length_lt _ _ m ?_ (cur, p) (aget_some_mem hget) ?_ ?_
  · intro a _ hq
    have : a.1 ∉ cur :: ids := of_decide_eq_true hq
    simp only [List.mem_cons] at this
    exact decide_eq_true (fun h => this (Or.inr h))
  · exact decide_eq_true hcur
  · exact decide_eq_false (by simp)

/-- Any two sufficient fuels give the same `findParentF` answer: the embedding
is faithful to the source's unbounded loop. -/
theorem findParentF_stable (m : List (String × String)) :
    ∀ (n : Nat) (ids : List String) (cur : String) (f g : Nat),
      unseen m ids ≤ n → unseen m ids < f → unseen m ids < g →
      findParentF m f ids cur = findParentF m g ids cur := by
  intro n
  induction n with
  | zero =>
    intro ids cur f g hn hf hg
    obtain ⟨f', rfl⟩ : ∃ f', f = f' + 1 := ⟨f - 1, by omega⟩
    obtain ⟨g', rfl⟩ : ∃ g', g = g' + 1 := ⟨g - 1, by omega⟩
    simp only [findParentF]
    by_cases hcur : cur ∈ ids
    · simp [hcur]
    · cases hget : aget cur m with
      | none => simp [hcur, hget]
      | some p => exact absurd (unseen_pos hget hcur) (by omega)
  | succ n ih =>
    intro ids cur f g hn hf hg
    obtain ⟨f', rfl⟩ : ∃ f', f = f' + 1 := ⟨f - 1, by omega⟩
    obtain ⟨g', rfl⟩ : ∃ g', g = g' + 1 := ⟨g - 1, by omega⟩
    simp only [findParentF]
    by_cases hcur : cur ∈ ids
    · simp [hcur]
    · cases hget : aget cur m with
      | none => simp [hcur, hget]
      | some p =>
        simp only [hcur, if_false, hget]
        by_cases hp : p = ""
        · rw [if_pos hp, if_pos hp]
        · rw [if_neg hp, if_neg hp]
          have hlt := unseen_lt hget hcur
          exact ih (cur :: ids) p f' g' (by omega) (by omega) (by omega)

theorem unseen_le_length (m : List (String × String)) (ids : List String) :
    unseen m ids ≤ m.length :=
  le_trans (List.length_filter_le _ _) (le_refl _)

/-! ## Durable storage and whole-cache purge -/

/-- Parsed contents of `meta.json` (each field may be absent: the source
guards with JS truthiness checks, and `meta.version || 1` maps both absence
and `0` to `1`). -/
structure MetaData where
  version : Option Nat
  updatedAt : Option (List (String × Nat))
  parents : Option (List (String × String))
deriving DecidableEq, Repr

/-- One durable file.  `none` contents stand for a read/parse failure
(`JSON.parse` or `readFile` throwing). -/
inductive DiskFile where
  | metaFile (content : Option MetaData)
  | blocksFile (key : String) (content : Option Resp)
  | otherFile (name : String)
deriving DecidableEq, Repr

abbrev Disk := List DiskFile

/-- `purgeCache()`: clears `databaseCache`, `databaseQueryCache`,
`blockChildrenListCache`, `pageCache`, `updatedAtMap` and `parentMap`, and
removes the durable directory.  The source never clears
`cacheUpdatedAtMap` here — the `{ s with ... }` below is the faithful
embedding of that omission. -/
def purgeCache (s : CacheState) (_d : Disk) : CacheState × Disk :=
  ({ s with
      databaseCache := []
      databaseQueryCache := []
      blockChildrenListCache := []
      pageCache := []
      updatedAtMap := []
      parentMap := [] },
   ([] : List DiskFile))

/-! ## Claim C1 -/

theorem listChildren_fetch_inversion (base : String → Option String → Resp)
    (s : CacheState) (blockId : String) (cursor : Option String)
    (h : (listChildren base s blockId cursor).2.2 = true) :
    listChildren base s blockId cursor = fetchAndStore base s blockId cursor := by
  unfold listChildren
  unfold listChildren at h
  cases hcu : canUseCache s blockId with
  | false => simp [hcu]
  | true =>
    cases hget : aget (cacheKey blockId cursor) s.blockChildrenListCache with
    | none => simp [hcu, hget]
    | some r => simp [hcu, hget] at h ⊢

/-- A concrete input on which C1, as stated, fails: for the block ID `""`
(an opaque string is allowed to be empty), the cached entry exists and the
anchor's two timestamps exist and are equal, yet the call still fetches,
because `#canUseCache` tests the anchor with JS truthiness (`if (!parentId)
return false`) and the empty string is falsy. -/
def c1ctrState : CacheState :=
  { blockChildrenListCache := [("", ⟨[]⟩)]
    updatedAtMap := [("", 5)]
    cacheUpdatedAtMap := [("", 5)]
    parentMap := [] }

def baseEmpty : String → Option String → Resp := fun _ _ => ⟨[]⟩

/-- C1 counterexample: entry present, anchor found, timestamps present and
equal — but the call is not served from cache (it fetches). -/
theorem c1_counterexample :
    (aget (cacheKey "" none) c1ctrState.blockChildrenListCache).isSome = true ∧
    findParent c1ctrState.parentMap "" = some "" ∧
    aget "" c1ctrState.updatedAtMap = some 5 ∧
    aget "" c1ctrState.cacheUpdatedAtMap = some 5 ∧
    (listChildren baseEmpty c1ctrState "" none).2.2 = true := by
  decide

/-- Characterization of `#canUseCache`. -/
theorem canUseCache_true_iff (s : CacheState) (blockId : String) :
    canUseCache s blockId = true ↔
      ∃ anchor t, findParent s.parentMap blockId = some anchor ∧ anchor ≠ "" ∧
        aget anchor s.updatedAtMap = some t ∧
        aget anchor s.cacheUpdatedAtMap = some t := by
  unfold canUseCache
  cases hfp : findParent s.parentMap blockId with
  | none => simp
  | some anchor =>
    dsimp only
    by_cases hne : anchor = ""
    · subst hne
      simp
    · rw [if_neg hne]
      cases hu : aget anchor s.updatedAtMap with
      | none =>
        constructor
        · intro h
          simp at h
        · rintro ⟨a2, t3, ha2, h2, hu2, hc2⟩
          obtain rfl : anchor = a2 := by injection ha2
          rw [hu] at hu2
          cases hu2
      | some t1 =>
        cases hc : aget anchor s.cacheUpdatedAtMap with
        | none =>
          constructor
          · intro h
            simp at h
          · rintro ⟨a2, t3, ha2, h2, hu2, hc2⟩
            obtain rfl : anchor = a2 := by injection ha2
            rw [hc] at hc2
            cases hc2
        | some t2 =>
          dsimp only
          rw [decide_eq_true_eq]
          constructor
          · intro ht
            exact ⟨anchor, t1, rfl, hne, hu, by rw [hc, ht]⟩
          · rintro ⟨a2, t3, ha2, h2, hu2, hc2⟩
            obtain rfl : anchor = a2 := by injection ha2
            rw [hu] at hu2
            rw [hc] at hc2
            have e1 : t1 = t3 := by injection hu2
            have e2 : t2 = t3 := by injection hc2
            rw [e1, e2]

/-- C1 (amended): a `listChildren` call is served from cache without an
upstream fetch iff the `(blockId, cursor)` entry exists and the anchor found
by the guarded upward walk — which stops at the first node whose recorded
parent is absent or empty, per `if (!parent) return current` — is a
*non-empty* ID whose `updatedAtMap` and `cacheUpdatedAtMap` times both exist
and are exactly equal; absence of either value, inequality, a cycle during
the walk, or an empty-string anchor all force a fetch. -/
theorem c1_hit_iff (base : String → Option String → Resp) (s : CacheState)
    (blockId : String) (cursor : Option String) :
    (listChildren base s blockId cursor).2.2 = false ↔
      ((aget (cacheKey blockId cursor) s.blockChildrenListCache).isSome ∧
       ∃ anchor t, findParent s.parentMap blockId = some anchor ∧ anchor ≠ "" ∧
         aget anchor s.updatedAtMap = some t ∧
         aget anchor s.cacheUpdatedAtMap = some t) := by
  rw [← canUseCache_true_iff]
  constructor
  · intro h
    unfold listChildren at h
    cases hcu : canUseCache s blockId with
    | false => simp [hcu, fetchAndStore] at h
    | true =>
      cases hget : aget (cacheKey blockId cursor) s.blockChildrenListCache with
      | none => simp [hcu, hget, fetchAndStore] at h
      | some r => exact ⟨by simp [hget], rfl⟩
  · rintro ⟨hsome, hcu⟩
    unfold listChildren
    rw [hcu]
    cases hget : aget (cacheKey blockId cursor) s.blockChildrenListCache with
    | none => rw [hget] at hsome; simp at hsome
    | some r => simp [hget]

/-! ## Claim C2 -/

/-- A concrete input on which C2, as stated, fails: `"B"`'s anchor is its
tracked parent `"P"` (`observedEditTime["P"] = 5`), the miss fetch succeeds,
yet nothing is recorded for the anchor (`cacheUpdatedAtMap["P]"` stays
absent — the source records under `blockId`, not the anchor) and the
subsequent identical call fetches again instead of hitting. -/
def c2ctrState : CacheState :=
  { updatedAtMap := [("P", 5)]
    parentMap := [("B", "P")] }

theorem c2_counterexample :
    findParent c2ctrState.parentMap "B" = some "P" ∧
    (listChildren baseEmpty c2ctrState "B" none).2.2 = true ∧
    aget "P" (listChildren baseEmpty c2ctrState "B" none).2.1.cacheUpdatedAtMap
      = none ∧
    (listChildren baseEmpty
        (listChildren baseEmpty c2ctrState "B" none).2.1 "B" none).2.2
      = true := by
  decide

/-- C2 (amended): a miss fetch overwrites the entry under
`(blockId, cursor)` and records `cacheUpdatedAtMap[blockId] =
updatedAtMap[blockId]` for the *requested node itself* (not the anchor),
whenever `updatedAtMap[blockId]` exists; consequently the subsequent
identical call is a hit when `blockId` is its own anchor, i.e. it has no
tracked parent after the fetch (and is non-empty). -/
theorem c2_miss_fetch_records_self (base : String → Option String → Resp)
    (s : CacheState) (blockId : String) (cursor : Option String) (t : Nat)
    (hu : aget blockId s.updatedAtMap = some t)
    (hne : blockId ≠ "")
    (hmiss : (listChildren base s blockId cursor).2.2 = true) :
    aget (cacheKey blockId cursor)
        (listChildren base s blockId cursor).2.1.blockChildrenListCache
      = some (base blockId cursor) ∧
    aget blockId (listChildren base s blockId cursor).2.1.cacheUpdatedAtMap
      = some t ∧
    (aget blockId (listChildren base s blockId cursor).2.1.parentMap = none →
      (listChildren base
          (listChildren base s blockId cursor).2.1 blockId cursor).2.2 = false ∧
      (listChildren base
          (listChildren base s blockId cursor).2.1 blockId cursor).1
        = base blockId cursor) := by
  rw [listChildren_fetch_inversion base s blockId cursor hmiss]
  have hcache :
      aget (cacheKey blockId cursor)
        (fetchAndStore base s blockId cursor).2.1.blockChildrenListCache
      = some (base blockId cursor) := by
    simp only [fetchAndStore]
    exact aget_aset_self _ _ _
  have hrec :
      aget blockId (fetchAndStore base s blockId cursor).2.1.cacheUpdatedAtMap
      = some t := by
    simp only [fetchAndStore, hu]
    exact aget_aset_self _ _ _
  refine ⟨hcache, hrec, ?_⟩
  intro hpm
  have hupd :
      (fetchAndStore base s blockId cursor).2.1.updatedAtMap
        = s.updatedAtMap := rfl
  have hfp :
      findParent (fetchAndStore base s blockId cursor).2.1.parentMap blockId
        = some blockId := by
    unfold findParent
    simp [findParentF, hpm]
  have hcu :
      canUseCache (fetchAndStore base s blockId cursor).2.1 blockId = true :=
    (canUseCache_true_iff _ _).mpr
      ⟨blockId, t, hfp, hne, by rw [hupd]; exact hu, hrec⟩
  constructor
  · unfold listChildren
    rw [hcu, hcache]
    rfl
  · unfold listChildren
    rw [hcu, hcache]
    rfl

/-- Witness for the amended C2 at a concrete input: `"B"` has an observed
edit time and no tracked parent, so after the first (miss) fetch the second
call is served from cache. -/
def c2witState : CacheState := { updatedAtMap := [("B", 7)] }

theorem c2_miss_fetch_records_self_witness :
    aget (cacheKey "B" none)
        (listChildren baseEmpty c2witState "B" none).2.1.blockChildrenListCache
      = some (baseEmpty "B" none) ∧
    aget "B" (listChildren baseEmpty c2witState "B" none).2.1.cacheUpdatedAtMap
      = some 7 ∧
    (aget "B" (listChildren baseEmpty c2witState "B" none).2.1.parentMap = none →
      (listChildren baseEmpty
          (listChildren baseEmpty c2witState "B" none).2.1 "B" none).2.2 = false ∧
      (listChildren baseEmpty
          (listChildren baseEmpty c2witState "B" none).2.1 "B" none).1
        = baseEmpty "B" none) :=
  c2_miss_fetch_records_self baseEmpty c2witState "B" none 7
    (by decide) (by decide) (by decide)

/-! ## Claim C5 -/

/-- A concrete input on which C5, as stated, fails: `purgeCache` leaves the
`cacheUpdatedAtMap` entry in place (the source clears every other map but
never this one). -/
def c5ctrState : CacheState := { cacheUpdatedAtMap := [("x", 1)] }

theorem c5_counterexample :
    aget "x" (purgeCache c5ctrState ([] : Disk)).1.cacheUpdatedAtMap
      = some 1 := by
  decide

/-- C5 (amended): `purgeCache` clears the block-children listing cache, the
collection metadata cache, the collection-query memoization, the page cache,
`updatedAtMap` and the ParentIndex, and removes all durable records — but
leaves `cacheUpdatedAtMap` unchanged.  No subsequent read can be served from
prior cache state because every entry store is empty: in particular every
subsequent `listChildren` fetches. -/
theorem c5_purgeCache (s : CacheState) (d : Disk) :
    (purgeCache s d).1.databaseCache = [] ∧
    (purgeCache s d).1.databaseQueryCache = [] ∧
    (purgeCache s d).1.blockChildrenListCache = [] ∧
    (purgeCache s d).1.pageCache = [] ∧
    (purgeCache s d).1.updatedAtMap = [] ∧
    (purgeCache s d).1.parentMap = [] ∧
    (purgeCache s d).2 = ([] : List DiskFile) ∧
    (purgeCache s d).1.cacheUpdatedAtMap = s.cacheUpdatedAtMap ∧
    (∀ (base : String → Option String → Resp) blockId cursor,
      (listChildren base (purgeCache s d).1 blockId cursor).2.2 = true) := by
  refine ⟨rfl, rfl, rfl, rfl, rfl, rfl, rfl, rfl, ?_⟩
  intro base blockId cursor
  unfold listChildren
  cases hcu : canUseCache (purgeCache s d).1 blockId with
  | false => simp [hcu, fetchAndStore]
  | true =>
    have : aget (cacheKey blockId cursor)
        (purgeCache s d).1.blockChildrenListCache = none := rfl
    simp [hcu, this, fetchAndStore]

/-! ## Downward descendant walk (`allChildrenIds`) and claim C10

The source recursion

```ts
allChildrenIds(parent) { for ([c, p] of parentMap) if (p === parent) ids.push(c, ...allChildrenIds(c)); }
```

carries no visited-set guard, so it diverges on a cyclic ParentIndex; the
embedding is fuel-indexed, and the lemmas below show that on an acyclic map
any fuel of at least `parentMap.length` computes the same, complete,
descendant enumeration. -/

def allChildrenIdsF (m : List (String × String)) : Nat → String → List String
  | 0, _ => []
  | fuel + 1, parent =>
    m.flatMap fun e =>
      if e.2 = parent then e.1 :: allChildrenIdsF m fuel e.1 else []

/-- `allChildrenIds(parent)` with the provably sufficient fuel. -/
def allChildrenIds (m : List (String × String)) (parent : String) : List String :=
  allChildrenIdsF m m.length parent

/-- A downward chain in the ParentIndex: `ChainL m p l` holds when `l` is a
nonempty path `p → l₀ → l₁ → ⋯` of parent-to-child steps (`(c, q) ∈ m` means
`c`'s recorded parent is `q`). -/
inductive ChainL (m : List (String × String)) : String → List String → Prop
  | base {c p : String} : (c, p) ∈ m → ChainL m p [c]
  | cons {c p : String} {l : List String} :
      (c, p) ∈ m → ChainL m c l → ChainL m p (c :: l)

/-- The ParentIndex has no cycle of child-to-parent links. -/
def Acyclic (m : List (String × String)) : Prop :=
  ∀ x l, ¬ ChainL m x (l ++ [x])

/-- `x` is a transitive descendant of `p` in the ParentIndex. -/
def Descendant (m : List (String × String)) (p x : String) : Prop :=
  ∃ l, ChainL m p l ∧ l.getLast? = some x

theorem ChainL.ne_nil {m : List (String × String)} {p : String}
    {l : List String} (h : ChainL m p l) : l ≠ [] := by
  cases h <;> simp

theorem ChainL.subset_keys {m : List (String × String)} {p : String}
    {l : List String} (h : ChainL m p l) : ∀ x ∈ l, x ∈ m.map Prod.fst := by
  induction h with
  | base hc =>
    intro x hx
    simp only [List.mem_singleton] at hx
    subst hx
    exact List.mem_map.mpr ⟨_, ‹_›, rfl⟩
  | cons hc _ ih =>
    intro x hx
    rcases List.mem_cons.mp hx with rfl | hx'
    · exact List.mem_map.mpr ⟨_, hc, rfl⟩
    · exact ih x hx'

/-- A chain may be truncated to any nonempty prefix. -/
theorem ChainL.prefix_closed {m : List (String × String)} :
    ∀ {l l' : List String} {p : String},
      ChainL m p (l ++ l') → l ≠ [] → ChainL m p l := by
  intro l
  induction l with
  | nil => intro l' p _ h; exact absurd rfl h
  | cons a t ih =>
    intro l' p h _
    cases t with
    | nil =>
      cases h with
      | base hc => exact ChainL.base hc
      | cons hc htail => exact ChainL.base hc
    | cons b u =>
      cases h with
      | cons hc htail =>
        exact ChainL.cons hc (ih htail (by simp))

/-- Dropping the head of a chain with a nonempty tail yields a chain from
that head. -/
theorem ChainL.tail_chain {m : List (String × String)} {p a : String}
    {l : List String} (h : ChainL m p (a :: l)) (hne : l ≠ []) :
    ChainL m a l := by
  cases h with
  | base _ => exact absurd rfl hne
  | cons _ htail => exact htail

/-- The suffix of a chain after an occurrence of `x` is a chain from `x`. -/
theorem ChainL.suffix_from {m : List (String × String)} :
    ∀ {l₁ rest : List String} {p x : String},
      ChainL m p (l₁ ++ x :: rest) → rest ≠ [] → ChainL m x rest := by
  intro l₁
  induction l₁ with
  | nil =>
    intro rest p x h hne
    exact h.tail_chain hne
  | cons a t ih =>
    intro rest p x h hne
    have h' : ChainL m a (t ++ x :: rest) :=
      ChainL.tail_chain h (by simp)
    exact ih h' hne

theorem not_nodup_split {α : Type} :
    ∀ {l : List α}, ¬ l.Nodup →
      ∃ (l₁ : List α) (x : α) (l₂ l₃ : List α), l = l₁ ++ x :: l₂ ++ x :: l₃ := by
  intro l
  induction l with
  | nil => intro h; exact absurd List.nodup_nil h
  | cons a t ih =>
    intro h
    rw [List.nodup_cons] at h
    push_neg at h
    by_cases ha : a ∈ t
    · obtain ⟨s, u, rfl⟩ := List.append_of_mem ha
      exact ⟨[], a, s, u, rfl⟩
    · obtain ⟨l₁, x, l₂, l₃, rfl⟩ := ih (h ha)
      exact ⟨a :: l₁, x, l₂, l₃, rfl⟩

/-- A chain that repeats an element yields a strictly shorter cycle. -/
theorem ChainL.cycle_of_dup {m : List (String × String)} {p : String}
    {l : List String} (h : ChainL m p l) (hdup : ¬ l.Nodup) :
    ∃ (x : String) (l₂ : List String),
      ChainL m x (l₂ ++ [x]) ∧ (l₂ ++ [x]).length < l.length := by
  obtain ⟨l₁, x, l₂, l₃, rfl⟩ := not_nodup_split hdup
  have h' : ChainL m p (l₁ ++ x :: (l₂ ++ x :: l₃)) := by
    have e : l₁ ++ x :: l₂ ++ x :: l₃ = l₁ ++ x :: (l₂ ++ x :: l₃) := by simp
    rwa [e] at h
  have hsuffix : ChainL m x (l₂ ++ x :: l₃) :=
    ChainL.suffix_from h' (by simp)
  have hcycle : ChainL m x (l₂ ++ [x]) := by
    have : ChainL m x ((l₂ ++ [x]) ++ l₃) := by
      simpa using hsuffix
    exact ChainL.prefix_closed this (by simp)
  refine ⟨x, l₂, hcycle, ?_⟩
  simp [List.length_append]
  omega

/-- Under acyclicity every chain is duplicate-free, hence bounded by the
number of ParentIndex entries. -/
theorem ChainL.length_le {m : List (String × String)} (hacyc : Acyclic m) :
    ∀ (n : Nat) {p : String} {l : List String},
      ChainL m p l → l.length ≤ n → l.length ≤ m.length := by
  intro n
  induction n with
  | zero => intro p l _ h; omega
  | succ n ih =>
    intro p l hchain hlen
    by_cases hdup : l.Nodup
    · have hsub : l ⊆ m.map Prod.fst := hchain.subset_keys
      have := (hdup.subperm hsub).length_le
      simpa using this
    · obtain ⟨x, l₂, hcyc, _⟩ := hchain.cycle_of_dup hdup
      exact absurd hcyc (hacyc x l₂)

theorem ChainL.length_le_of_acyclic {m : List (String × String)}
    (hacyc : Acyclic m) {p : String} {l : List String} (h : ChainL m p l) :
    l.length ≤ m.length :=
  ChainL.length_le hacyc l.length h (le_refl _)

/-- Completeness of the fuelled walk: any descendant at chain distance at
most the fuel is enumerated. -/
theorem mem_allChildrenIdsF_of_chain {m : List (String × String)} :
    ∀ {p x : String} {l : List String},
      ChainL m p l → l.getLast? = some x → ∀ {n : Nat}, l.length ≤ n →
      x ∈ allChildrenIdsF m n p := by
  intro p x l hchain
  induction hchain with
  | base hc =>
    intro hlast n hlen
    obtain ⟨n', rfl⟩ : ∃ n', n = n' + 1 := ⟨n - 1, by simp at hlen; omega⟩
    obtain rfl : _ = x := by simpa using hlast
    simp only [allChildrenIdsF]
    exact List.mem_flatMap.mpr ⟨_, hc, by simp⟩
  | @cons c p l hc htail ih =>
    intro hlast n hlen
    obtain ⟨n', rfl⟩ : ∃ n', n = n' + 1 := ⟨n - 1, by simp at hlen; omega⟩
    have hlast' : l.getLast? = some x := by
      cases l with
      | nil => exact absurd rfl htail.ne_nil
      | cons b u => rwa [List.getLast?_cons_cons] at hlast
    have hx : x ∈ allChildrenIdsF m n' c := ih hlast' (by simp at hlen; omega)
    simp only [allChildrenIdsF]
    exact List.mem_flatMap.mpr ⟨(c, p), hc, by simp [hx]⟩

/-- Soundness of the fuelled walk: everything enumerated is a genuine
transitive descendant. -/
theorem chain_of_mem_allChildrenIdsF {m : List (String × String)} :
    ∀ (n : Nat) {p x : String}, x ∈ allChildrenIdsF m n p →
      Descendant m p x := by
  intro n
  induction n with
  | zero => intro p x h; simp [allChildrenIdsF] at h
  | succ n ih =>
    intro p x h
    simp only [allChildrenIdsF] at h
    obtain ⟨e, hem, hx⟩ := List.mem_flatMap.mp h
    by_cases hep : e.2 = p
    · rw [if_pos hep] at hx
      rcases List.mem_cons.mp hx with rfl | hx'
      · refine ⟨[e.1], ChainL.base ?_, rfl⟩
        have : (e.1, p) = e := by
          rw [← hep]
        rw [this]
        exact hem
      · obtain ⟨l, hchain, hlast⟩ := ih hx'
        refine ⟨e.1 :: l, ChainL.cons ?_ hchain, ?_⟩
        · have : (e.1, p) = e := by rw [← hep]
          rw [this]
          exact hem
        · cases l with
          | nil => exact absurd rfl hchain.ne_nil
          | cons b u => rwa [List.getLast?_cons_cons]
    · rw [if_neg hep] at hx
      simp at hx

/-- Fuel stability: once every chain from `p` is no longer than `B`, any two
fuels of at least `B` enumerate the same list (in the same order). -/
theorem allChildrenIdsF_stable {m : List (String × String)} :
    ∀ (B : Nat) (p : String),
      (∀ l, ChainL m p l → l.length ≤ B) →
      ∀ (f g : Nat), B ≤ f → B ≤ g →
      allChildrenIdsF m f p = allChildrenIdsF m g p := by
  intro B
  induction B with
  | zero =>
    intro p hbound f g _ _
    have hnil : ∀ (h : Nat), allChildrenIdsF m h p = [] := by
      intro h
      cases h with
      | zero => rfl
      | succ h' =>
        simp only [allChildrenIdsF]
        rw [List.flatMap_eq_nil_iff]
        intro e hem
        by_cases hep : e.2 = p
        · have : ChainL m p [e.1] := ChainL.base (by
            have : (e.1, p) = e := by rw [← hep]
            rw [this]; exact hem)
          have := hbound _ this
          simp at this
        · rw [if_neg hep]
    rw [hnil f, hnil g]
  | succ B ih =>
    intro p hbound f g hf hg
    obtain ⟨f', rfl⟩ : ∃ f', f = f' + 1 := ⟨f - 1, by omega⟩
    obtain ⟨g', rfl⟩ : ∃ g', g = g' + 1 := ⟨g - 1, by omega⟩
    simp only [allChildrenIdsF]
    refine List.flatMap_congr ?_
    intro e hem
    by_cases hep : e.2 = p
    · rw [if_pos hep, if_pos hep]
      have hchild : ∀ l, ChainL m e.1 l → l.length ≤ B := by
        intro l hl
        have hme : (e.1, p) ∈ m := by
          have : (e.1, p) = e := by rw [← hep]
          rw [this]; exact hem
        have : ChainL m p (e.1 :: l) := ChainL.cons hme hl
        have := hbound _ this
        simp at this
        omega
      rw [ih e.1 hchild f' g' (by omega) (by omega)]
    · rw [if_neg hep, if_neg hep]

/-- Decidable cycle test used to discharge acyclicity hypotheses on concrete
inputs: some key reaches itself through the fuelled downward walk. -/
def hasCycleB (m : List (String × String)) : Bool :=
  (m.map Prod.fst).any fun x => (allChildrenIdsF m m.length x).contains x

/-- A cycle chain yields a duplicate-free cycle chain (by repeatedly
extracting the strictly shorter cycle of `ChainL.cycle_of_dup`). -/
theorem cycle_nodup {m : List (String × String)} :
    ∀ (n : Nat) (x : String) (l : List String),
      ChainL m x (l ++ [x]) → (l ++ [x]).length ≤ n →
      ∃ (y : String) (l' : List String),
        ChainL m y (l' ++ [y]) ∧ (l' ++ [y]).Nodup := by
  intro n
  induction n with
  | zero => intro x l _ hlen; simp at hlen
  | succ n ih =>
    intro x l hchain hlen
    by_cases hdup : (l ++ [x]).Nodup
    · exact ⟨x, l, hchain, hdup⟩
    · obtain ⟨y, l₂, hcyc, hlt⟩ := hchain.cycle_of_dup hdup
      exact ih y l₂ hcyc (by omega)

/-- Soundness of the decidable test: if it reports no cycle, the ParentIndex
is acyclic. -/
theorem acyclic_of_hasCycleB_false {m : List (String × String)}
    (h : hasCycleB m = false) : Acyclic m := by
  intro x l hchain
  obtain ⟨y, l', hcyc, hnodup⟩ :=
    cycle_nodup (l ++ [x]).length x l hchain (le_refl _)
  have hsub : (l' ++ [y]) ⊆ m.map Prod.fst := hcyc.subset_keys
  have hlen : (l' ++ [y]).length ≤ m.length := by
    have := (hnodup.subperm hsub).length_le
    simpa using this
  have hy : y ∈ allChildrenIdsF m m.length y :=
    mem_allChildrenIdsF_of_chain hcyc (by simp) hlen
  have hykey : y ∈ m.map Prod.fst := hsub (by simp)
  have : (m.map Prod.fst).any
      (fun z => (allChildrenIdsF m m.length z).contains z) = true :=
    List.any_eq_true.mpr ⟨y, hykey, by simpa using hy⟩
  rw [hasCycleB] at h
  rw [h] at this
  cases this

/-- Claim C10: on an acyclic ParentIndex the descendant walk terminates —
every fuel of at least `m.length` (in particular the fuel `allChildrenIds`
uses) computes the same list — and enumerates exactly the transitive
descendants. -/
theorem allChildrenIds_terminates_and_complete
    (m : List (String × String)) (hacyc : Acyclic m) (id : String) :
    (∀ n, m.length ≤ n → allChildrenIdsF m n id = allChildrenIds m id) ∧
    (∀ x, Descendant m id x ↔ x ∈ allChildrenIds m id) := by
  constructor
  · intro n hn
    exact allChildrenIdsF_stable m.length id
      (fun l hl => hl.length_le_of_acyclic hacyc) n m.length hn (le_refl _)
  · intro x
    constructor
    · rintro ⟨l, hchain, hlast⟩
      exact mem_allChildrenIdsF_of_chain hchain hlast
        (hchain.length_le_of_acyclic hacyc)
    · intro hx
      exact chain_of_mem_allChildrenIdsF m.length hx

/-- Witness for C10 on a concrete acyclic ParentIndex
`b → a, c → b` (children of `a`: `b` and transitively `c`). -/
theorem allChildrenIds_terminates_and_complete_witness :
    (∀ n, ([("b", "a"), ("c", "b")] : List (String × String)).length ≤ n →
      allChildrenIdsF [("b", "a"), ("c", "b")] n "a"
        = allChildrenIds [("b", "a"), ("c", "b")] "a") ∧
    (∀ x, Descendant [("b", "a"), ("c", "b")] "a" x ↔
      x ∈ allChildrenIds [("b", "a"), ("c", "b")] "a") :=
  allChildrenIds_terminates_and_complete [("b", "a"), ("c", "b")]
    (acyclic_of_hasCycleB_false (by decide)) "a"

/-! ## Claim C4: `purgeCacheById` -/

/-- `p.startsWith(q)` on opaque ID strings, embedded at the character level
(`String.startsWith` compares the same characters through byte positions). -/
def strPrefix (p s : String) : Bool := p.data.isPrefixOf s.data

/-- The source's per-key test
`key.startsWith(targetId) || key.startsWith(targetId + "_")`
accumulated over all purged ids. -/
def purgeMatches (allIds : List String) (k : String) : Bool :=
  allIds.any fun t => strPrefix t k || strPrefix (t ++ "_") k

/-- `#writeMetaCache()`: overwrite `meta.json` with the current version,
`updatedAtMap` and `parentMap`. -/
def writeMetaFile (d : Disk) (updatedAt : List (String × Nat))
    (parents : List (String × String)) : Disk :=
  (d.filter fun f => match f with
    | DiskFile.metaFile _ => false
    | _ => true)
    ++ [DiskFile.metaFile (some ⟨some 2, some updatedAt, some parents⟩)]

/-- `purgeCacheById(id)`: enumerate `id` plus its ParentIndex descendants,
delete their validity records and parent links, delete every block-listing
entry whose key *starts with* one of the purged ids (in memory and among the
durable `blocks-*.json` records), then rewrite the meta record. -/
def purgeCacheById (s : CacheState) (d : Disk) (id : String) :
    CacheState × Disk :=
  let allIds := id :: allChildrenIds s.parentMap id
  let updatedAt' := allIds.foldl (fun mm t => adel t mm) s.updatedAtMap
  let cacheUpdatedAt' := allIds.foldl (fun mm t => adel t mm) s.cacheUpdatedAtMap
  let parentMap' := allIds.foldl (fun mm t => adel t mm) s.parentMap
  let blockCache' :=
    s.blockChildrenListCache.filter fun e => !(purgeMatches allIds e.1)
  let d' := d.filter fun f =>
    match f with
    | DiskFile.blocksFile key _ => !(purgeMatches allIds key)
    | _ => true
  ({ s with
      updatedAtMap := updatedAt'
      cacheUpdatedAtMap := cacheUpdatedAt'
      parentMap := parentMap'
      blockChildrenListCache := blockCache' },
   writeMetaFile d' updatedAt' parentMap')

theorem aget_foldl_adel {α : Type} (ids : List String) :
    ∀ (m : List (String × α)) (x : String),
      aget x (ids.foldl (fun mm t => adel t mm) m)
        = if x ∈ ids then none else aget x m := by
  induction ids with
  | nil => intro m x; simp
  | cons t ts ih =>
    intro m x
    rw [List.foldl_cons, ih]
    by_cases hx : x = t
    · subst hx
      simp [aget_adel_self]
    · by_cases hxs : x ∈ ts
      · simp [hxs]
      · simp [hxs, hx, aget_adel_ne t x m (fun h => hx h.symm)]

theorem aget_filter_not_matches {allIds : List String} :
    ∀ (m : List (String × Resp)) (k : String),
      aget k (m.filter fun e => !(purgeMatches allIds e.1))
        = if purgeMatches allIds k then none else aget k m := by
  intro m
  induction m with
  | nil => intro k; simp
  | cons e t ih =>
    intro k
    obtain ⟨a, b⟩ := e
    by_cases hpa : purgeMatches allIds a
    · by_cases hk : a = k
      · subst hk
        simp [List.filter_cons, hpa, ih]
      · simp [List.filter_cons, hpa, ih, aget_cons, hk]
    · by_cases hk : a = k
      · subst hk
        simp [List.filter_cons, hpa, aget_cons]
      · simp [List.filter_cons, hpa, aget_cons, hk, ih]

theorem strPrefix_self_key (t : String) (c : Option String) :
    strPrefix t (cacheKey t c) = true := by
  cases c with
  | none =>
    rw [strPrefix, cacheKey]
    exact List.isPrefixOf_iff_prefix.mpr List.prefix_rfl
  | some c =>
    rw [strPrefix, cacheKey]
    refine List.isPrefixOf_iff_prefix.mpr ?_
    rw [String.data_append, String.data_append, List.append_assoc]
    exact List.prefix_append _ _

theorem strPrefix_ext_false {t k : String} (h : strPrefix t k = false) :
    strPrefix (t ++ "_") k = false := by
  by_contra hne
  have htrue : strPrefix (t ++ "_") k = true := by
    cases hval : strPrefix (t ++ "_") k with
    | true => rfl
    | false => exact absurd hval hne
  have hpre : (t ++ "_").data <+: k.data := List.isPrefixOf_iff_prefix.mp htrue
  have hself : t.data <+: (t ++ "_").data := by
    rw [String.data_append]
    exact List.prefix_append _ _
  have : t.data <+: k.data := hself.trans hpre
  rw [strPrefix, List.isPrefixOf_iff_prefix.mpr this] at h
  cases h

theorem purgeMatches_of_mem {allIds : List String} {t : String}
    (ht : t ∈ allIds) (c : Option String) :
    purgeMatches allIds (cacheKey t c) = true :=
  List.any_eq_true.mpr ⟨t, ht, by rw [strPrefix_self_key]; rfl⟩

theorem purgeMatches_false_of_no_ext {allIds : List String} {k : String}
    (h : ∀ t ∈ allIds, strPrefix t k = false) :
    purgeMatches allIds k = false := by
  rw [purgeMatches]
  rw [List.any_eq_false]
  intro t ht
  rw [h t ht, strPrefix_ext_false (h t ht)]
  simp

/-- A concrete input on which C4, as stated, fails: purging node `"a"`
(which has no descendants) also deletes the unrelated node `"ab"`'s
child-listing entry, because the source matches cache keys by *string
prefix* (`key.startsWith(targetId)`). -/
def c4ctrState : CacheState := { blockChildrenListCache := [("ab", ⟨[]⟩)] }

theorem c4_counterexample :
    ("ab" ∉ ("a" :: allChildrenIds c4ctrState.parentMap "a")) ∧
    aget "ab" (purgeCacheById c4ctrState ([] : Disk) "a").1.blockChildrenListCache
      = none ∧
    aget "ab" c4ctrState.blockChildrenListCache = some ⟨[]⟩ := by
  decide

/-- C4 (amended): on an acyclic ParentIndex, `purgeCacheById(id)` removes
the validity records and parent links of exactly `id` and its transitive
descendants, removes every child-listing entry (any cursor) of those ids
from memory and from the durable `blocks-*` records, and leaves every entry
whose key does not have a purged id as a string prefix unchanged.  (Exact
per-node framing holds whenever no other node's key extends a purged id as a
string prefix — e.g. for fixed-length UUID ids.) -/
theorem c4_purgeById_exact (s : CacheState) (d : Disk) (id : String)
    (hacyc : Acyclic s.parentMap) :
    (∀ x, x ∈ (id :: allChildrenIds s.parentMap id) ↔
        (x = id ∨ Descendant s.parentMap id x)) ∧
    (∀ t ∈ (id :: allChildrenIds s.parentMap id),
        aget t (purgeCacheById s d id).1.updatedAtMap = none ∧
        aget t (purgeCacheById s d id).1.cacheUpdatedAtMap = none ∧
        aget t (purgeCacheById s d id).1.parentMap = none) ∧
    (∀ t ∈ (id :: allChildrenIds s.parentMap id), ∀ c,
        aget (cacheKey t c)
          (purgeCacheById s d id).1.blockChildrenListCache = none) ∧
    (∀ t ∈ (id :: allChildrenIds s.parentMap id), ∀ c r,
        DiskFile.blocksFile (cacheKey t c) r ∉ (purgeCacheById s d id).2) ∧
    (∀ k, (∀ t ∈ (id :: allChildrenIds s.parentMap id), strPrefix t k = false) →
        aget k (purgeCacheById s d id).1.blockChildrenListCache
          = aget k s.blockChildrenListCache) ∧
    (∀ x, x ∉ (id :: allChildrenIds s.parentMap id) →
        aget x (purgeCacheById s d id).1.updatedAtMap = aget x s.updatedAtMap ∧
        aget x (purgeCacheById s d id).1.cacheUpdatedAtMap
          = aget x s.cacheUpdatedAtMap ∧
        aget x (purgeCacheById s d id).1.parentMap = aget x s.parentMap) ∧
    (∀ k r, (∀ t ∈ (id :: allChildrenIds s.parentMap id),
          strPrefix t k = false) →
        (DiskFile.blocksFile k r ∈ (purgeCacheById s d id).2 ↔
          DiskFile.blocksFile k r ∈ d)) := by
  refine ⟨?_, ?_, ?_, ?_, ?_, ?_, ?_⟩
  · intro x
    rw [List.mem_cons]
    have hiff :=
      (allChildrenIds_terminates_and_complete s.parentMap hacyc id).2 x
    constructor
    · rintro (rfl | hx)
      · exact Or.inl rfl
      · exact Or.inr (hiff.mpr hx)
    · rintro (rfl | hx)
      · exact Or.inl rfl
      · exact Or.inr (hiff.mp hx)
  · intro t ht
    refine ⟨?_, ?_, ?_⟩ <;>
      · show aget t (List.foldl _ _ _) = none
        rw [aget_foldl_adel]
        simp [ht]
  · intro t ht c
    show aget (cacheKey t c) (List.filter _ _) = none
    rw [aget_filter_not_matches, if_pos (purgeMatches_of_mem ht c)]
  · intro t ht c r
    intro hmem
    rw [purgeCacheById] at hmem
    simp only [writeMetaFile, List.mem_append] at hmem
    rcases hmem with hmem | hmem
    · rw [List.mem_filter] at hmem
      obtain ⟨hin, hkeep⟩ := hmem
      rw [List.mem_filter] at hin
      obtain ⟨_, hkeep2⟩ := hin
      have hb : (!purgeMatches (id :: allChildrenIds s.parentMap id)
          (cacheKey t c)) = true := hkeep2
      rw [purgeMatches_of_mem ht c] at hb
      simp at hb
    · simp at hmem
  · intro k hk
    show aget k (List.filter _ _) = _
    rw [aget_filter_not_matches, if_neg ?_]
    rw [purgeMatches_false_of_no_ext hk]
    simp
  · intro x hx
    refine ⟨?_, ?_, ?_⟩ <;>
      · show aget x (List.foldl _ _ _) = _
        rw [aget_foldl_adel]
        simp [hx]
  · intro k r hk
    have hmatch : purgeMatches (id :: allChildrenIds s.parentMap id) k = false :=
      purgeMatches_false_of_no_ext hk
    rw [purgeCacheById]
    simp only [writeMetaFile, List.mem_append]
    constructor
    · rintro (hmem | hmem)
      · rw [List.mem_filter] at hmem
        obtain ⟨hin, _⟩ := hmem
        rw [List.mem_filter] at hin
        exact hin.1
      · simp at hmem
    · intro hmem
      refine Or.inl ?_
      rw [List.mem_filter]
      refine ⟨?_, rfl⟩
      rw [List.mem_filter]
      refine ⟨hmem, ?_⟩
      show (!purgeMatches (id :: allChildrenIds s.parentMap id) k) = true
      rw [hmatch]
      rfl

/-- Witness for the amended C4 on a concrete acyclic state: purging `"a"`
(descendant `"b"`) with an unrelated node `"z"` and cursor entries. -/
def c4witState : CacheState :=
  { blockChildrenListCache :=
      [("a", ⟨[]⟩), ("a_c1", ⟨[]⟩), ("b", ⟨[]⟩), ("z", ⟨[]⟩)]
    updatedAtMap := [("a", 1), ("z", 2)]
    cacheUpdatedAtMap := [("a", 1)]
    parentMap := [("b", "a")] }

def c4witDisk : Disk :=
  [DiskFile.blocksFile "a" (some ⟨[]⟩), DiskFile.blocksFile "z" (some ⟨[]⟩)]

theorem c4_purgeById_exact_witness :
    (∀ x, x ∈ ("a" :: allChildrenIds c4witState.parentMap "a") ↔
        (x = "a" ∨ Descendant c4witState.parentMap "a" x)) ∧
    (∀ t ∈ ("a" :: allChildrenIds c4witState.parentMap "a"),
        aget t (purgeCacheById c4witState c4witDisk "a").1.updatedAtMap = none ∧
        aget t (purgeCacheById c4witState c4witDisk "a").1.cacheUpdatedAtMap = none ∧
        aget t (purgeCacheById c4witState c4witDisk "a").1.parentMap = none) ∧
    (∀ t ∈ ("a" :: allChildrenIds c4witState.parentMap "a"), ∀ c,
        aget (cacheKey t c)
          (purgeCacheById c4witState c4witDisk "a").1.blockChildrenListCache = none) ∧
    (∀ t ∈ ("a" :: allChildrenIds c4witState.parentMap "a"), ∀ c r,
        DiskFile.blocksFile (cacheKey t c) r ∉
          (purgeCacheById c4witState c4witDisk "a").2) ∧
    (∀ k, (∀ t ∈ ("a" :: allChildrenIds c4witState.parentMap "a"),
          strPrefix t k = false) →
        aget k (purgeCacheById c4witState c4witDisk "a").1.blockChildrenListCache
          = aget k c4witState.blockChildrenListCache) ∧
    (∀ x, x ∉ ("a" :: allChildrenIds c4witState.parentMap "a") →
        aget x (purgeCacheById c4witState c4witDisk "a").1.updatedAtMap
          = aget x c4witState.updatedAtMap ∧
        aget x (purgeCacheById c4witState c4witDisk "a").1.cacheUpdatedAtMap
          = aget x c4witState.cacheUpdatedAtMap ∧
        aget x (purgeCacheById c4witState c4witDisk "a").1.parentMap
          = aget x c4witState.parentMap) ∧
    (∀ k r, (∀ t ∈ ("a" :: allChildrenIds c4witState.parentMap "a"),
          strPrefix t k = false) →
        (DiskFile.blocksFile k r ∈ (purgeCacheById c4witState c4witDisk "a").2 ↔
          DiskFile.blocksFile k r ∈ c4witDisk)) :=
  c4_purgeById_exact c4witState c4witDisk "a"
    (acyclic_of_hasCycleB_false (by decide))

/-! ## Claim C3: `loadCache` and `#migrateCache` -/

/-- `CACHE_VERSION = 2` (v2: `databases.query` → `dataSources.query`). -/
def CACHE_VERSION : Nat := 2

/-- `meta.version || 1`: absence and the falsy `0` both default to `1`. -/
def effVersion (v : Option Nat) : Nat :=
  match v with
  | none => 1
  | some 0 => 1
  | some v => v

/-- The first `meta.json` entry of the directory listing, if any
(`some none` = present but unreadable/unparsable). -/
def findMeta : Disk → Option (Option MetaData)
  | [] => none
  | DiskFile.metaFile c :: _ => some c
  | _ :: t => findMeta t

/-- `true` iff every `blocks-*.json` record is readable. -/
def noCorruptBlocks (d : Disk) : Bool :=
  d.all fun f =>
    match f with
    | DiskFile.blocksFile _ none => false
    | _ => true

/-- The `for (const file of dir)` loop of `loadCache`: load every readable
`blocks-*.json` entry into the in-memory listing cache; the first unreadable
one throws into the surrounding `catch`, which purges (`fullDisk` is the
directory that `purgeCache` then removes). -/
def loadBlocksF (full : Disk) : Disk → CacheState → CacheState × Disk
  | [], s => (s, full)
  | DiskFile.blocksFile key (some r) :: rest, s =>
    loadBlocksF full rest
      { s with blockChildrenListCache := aset key r s.blockChildrenListCache }
  | DiskFile.blocksFile _ none :: _, s => purgeCache s full
  | DiskFile.metaFile _ :: rest, s => loadBlocksF full rest s
  | DiskFile.otherFile _ :: rest, s => loadBlocksF full rest s

/-- `#migrateCache(fromVersion)`: for `1` clear the in-memory query
memoization only, then persist the bumped meta record (the block caches and
loaded meta data remain). -/
def migrateCache (s : CacheState) (d : Disk) (fromVersion : Nat) :
    CacheState × Disk :=
  if fromVersion = 1 then
    let s' := { s with databaseQueryCache := [] }
    (s', writeMetaFile d s'.updatedAtMap s'.parentMap)
  else (s, d)

/-- `loadCache()`: read `meta.json` if present (loading the timestamp
snapshot into `cacheUpdatedAtMap` and the ParentIndex), migrate or purge on
a version mismatch, then load the `blocks-*` records; any read/parse
failure lands in the `catch`, which purges and returns normally. -/
def loadCache (s : CacheState) (d : Disk) : CacheState × Disk :=
  match findMeta d with
  | some none => purgeCache s d
  | some (some meta) =>
    let v := effVersion meta.version
    let s₁ :=
      { s with
          cacheUpdatedAtMap :=
            match meta.updatedAt with
            | some ua => ua
            | none => s.cacheUpdatedAtMap
          parentMap :=
            match meta.parents with
            | some ps => ps
            | none => s.parentMap }
    if v < CACHE_VERSION then
      let sd := migrateCache s₁ d v
      loadBlocksF sd.2 d sd.1
    else if CACHE_VERSION < v then purgeCache s₁ d
    else loadBlocksF d d s₁
  | none => loadBlocksF d d s

theorem loadBlocksF_clean (full : Disk) :
    ∀ (entries : Disk) (s : CacheState), noCorruptBlocks entries = true →
      (loadBlocksF full entries s).1.databaseCache = s.databaseCache ∧
      (loadBlocksF full entries s).1.databaseQueryCache = s.databaseQueryCache ∧
      (loadBlocksF full entries s).1.pageCache = s.pageCache ∧
      (loadBlocksF full entries s).1.updatedAtMap = s.updatedAtMap ∧
      (loadBlocksF full entries s).1.cacheUpdatedAtMap = s.cacheUpdatedAtMap ∧
      (loadBlocksF full entries s).1.parentMap = s.parentMap ∧
      (loadBlocksF full entries s).2 = full := by
  intro entries
  induction entries with
  | nil => intro s _; exact ⟨rfl, rfl, rfl, rfl, rfl, rfl, rfl⟩
  | cons f rest ih =>
    intro s hclean
    match f with
    | DiskFile.blocksFile key (some r) =>
      have hrest : noCorruptBlocks rest = true := by
        rw [noCorruptBlocks] at hclean ⊢
        rw [List.all_cons] at hclean
        simpa using hclean
      exact ih _ hrest
    | DiskFile.blocksFile key none =>
      rw [noCorruptBlocks] at hclean
      rw [List.all_cons] at hclean
      simp at hclean
    | DiskFile.metaFile c =>
      have hrest : noCorruptBlocks rest = true := by
        rw [noCorruptBlocks] at hclean ⊢
        rw [List.all_cons] at hclean
        simpa using hclean
      exact ih _ hrest
    | DiskFile.otherFile n =>
      have hrest : noCorruptBlocks rest = true := by
        rw [noCorruptBlocks] at hclean ⊢
        rw [List.all_cons] at hclean
        simpa using hclean
      exact ih _ hrest

theorem loadBlocksF_corrupt (full : Disk) :
    ∀ (entries : Disk) (s : CacheState), noCorruptBlocks entries = false →
      (loadBlocksF full entries s).1
          = { cacheUpdatedAtMap := s.cacheUpdatedAtMap } ∧
      (loadBlocksF full entries s).2 = [] := by
  intro entries
  induction entries with
  | nil => intro s h; rw [noCorruptBlocks] at h; simp at h
  | cons f rest ih =>
    intro s hbad
    match f with
    | DiskFile.blocksFile key (some r) =>
      have hrest : noCorruptBlocks rest = false := by
        rw [noCorruptBlocks] at hbad ⊢
        rw [List.all_cons] at hbad
        simpa using hbad
      exact ih _ hrest
    | DiskFile.blocksFile key none => exact ⟨rfl, rfl⟩
    | DiskFile.metaFile c =>
      have hrest : noCorruptBlocks rest = false := by
        rw [noCorruptBlocks] at hbad ⊢
        rw [List.all_cons] at hbad
        simpa using hbad
      exact ih _ hrest
    | DiskFile.otherFile n =>
      have hrest : noCorruptBlocks rest = false := by
        rw [noCorruptBlocks] at hbad ⊢
        rw [List.all_cons] at hbad
        simpa using hbad
      exact ih _ hrest

/-- A concrete input on which C3, as stated, fails: metadata with a *newer*
format version (3 > 2) is supposed to trigger a full purge, but the
timestamp snapshot has already been loaded into `cacheUpdatedAtMap` before
the version check and `purgeCache` never clears that map, so the process
does not start cold. -/
def c3ctrDisk : Disk :=
  [DiskFile.metaFile (some ⟨some 3, some [("x", 1)], some [("b", "x")]⟩)]

theorem c3_counterexample :
    aget "x" (loadCache {} c3ctrDisk).1.cacheUpdatedAtMap = some 1 ∧
    (loadCache {} c3ctrDisk).1.parentMap = [] ∧
    (loadCache {} c3ctrDisk).1.blockChildrenListCache = [] ∧
    (loadCache {} c3ctrDisk).2 = ([] : Disk) := by
  decide

/-- C3 (amended): (1) metadata one version behind triggers the migration,
which keeps the loaded timestamp snapshot and ParentIndex in memory, clears
only the collection-query memoization, leaves the other caches alone, and
persists the bumped version; (2) metadata with a *newer* version purges
every structure and all durable records *except* the `cacheUpdatedAtMap`
snapshot already loaded from that metadata, which survives in memory;
(3) an unreadable `meta.json` and (4) an unreadable `blocks-*` record then
likewise purge everything except the (then untouched) `cacheUpdatedAtMap`,
and the load returns normally instead of raising. -/
theorem c3_loadCache (s : CacheState) (d : Disk) (meta : MetaData)
    (ua : List (String × Nat)) (ps : List (String × String)) :
    (findMeta d = some (some meta) →
      effVersion meta.version = CACHE_VERSION - 1 →
      noCorruptBlocks d = true →
      meta.updatedAt = some ua → meta.parents = some ps →
      (loadCache s d).1.cacheUpdatedAtMap = ua ∧
      (loadCache s d).1.parentMap = ps ∧
      (loadCache s d).1.databaseQueryCache = [] ∧
      (loadCache s d).1.databaseCache = s.databaseCache ∧
      (loadCache s d).1.pageCache = s.pageCache ∧
      (loadCache s d).1.updatedAtMap = s.updatedAtMap ∧
      DiskFile.metaFile (some ⟨some CACHE_VERSION, some s.updatedAtMap, some ps⟩)
        ∈ (loadCache s d).2) ∧
    (findMeta d = some (some meta) →
      CACHE_VERSION < effVersion meta.version →
      meta.updatedAt = some ua →
      (loadCache s d).1 = { cacheUpdatedAtMap := ua } ∧
      (loadCache s d).2 = ([] : Disk)) ∧
    (findMeta d = some none →
      (loadCache s d).1 = { cacheUpdatedAtMap := s.cacheUpdatedAtMap } ∧
      (loadCache s d).2 = ([] : Disk)) ∧
    (findMeta d = none → noCorruptBlocks d = false →
      (loadCache s d).1 = { cacheUpdatedAtMap := s.cacheUpdatedAtMap } ∧
      (loadCache s d).2 = ([] : Disk)) := by
  refine ⟨?_, ?_, ?_, ?_⟩
  · intro hmeta hver hclean hua hps
    have hv : effVersion meta.version = 1 := hver
    have hlt : (1 : Nat) < CACHE_VERSION := by rw [CACHE_VERSION]; omega
    simp only [loadCache, hmeta, hv, hua, hps]
    rw [if_pos hlt, migrateCache, if_pos rfl]
    dsimp only
    have hc := loadBlocksF_clean
      (writeMetaFile d s.updatedAtMap ps) d
      { s with
          cacheUpdatedAtMap := ua
          parentMap := ps
          databaseQueryCache := [] } hclean
    refine ⟨hc.2.2.2.2.1, hc.2.2.2.2.2.1, hc.2.1, hc.1, hc.2.2.1,
      hc.2.2.2.1, ?_⟩
    rw [hc.2.2.2.2.2.2]
    rw [writeMetaFile]
    simp [CACHE_VERSION]
  · intro hmeta hver hua
    simp only [loadCache, hmeta, hua]
    rw [if_neg (by omega), if_pos hver]
    exact ⟨rfl, rfl⟩
  · intro hmeta
    simp only [loadCache, hmeta]
    exact ⟨rfl, rfl⟩
  · intro hmeta hbad
    simp only [loadCache, hmeta]
    exact loadBlocksF_corrupt d d s hbad

/-- Witness for the amended C3: the four scenarios at concrete disks. -/
theorem c3_loadCache_witness :
    ((loadCache {} [DiskFile.metaFile
          (some ⟨some 1, some [("p", 5)], some [("b", "p")]⟩),
        DiskFile.blocksFile "p" (some ⟨[]⟩)]).1.cacheUpdatedAtMap
        = [("p", 5)] ∧
      (loadCache {} [DiskFile.metaFile
          (some ⟨some 1, some [("p", 5)], some [("b", "p")]⟩),
        DiskFile.blocksFile "p" (some ⟨[]⟩)]).1.parentMap = [("b", "p")] ∧
      (loadCache {} [DiskFile.metaFile
          (some ⟨some 1, some [("p", 5)], some [("b", "p")]⟩),
        DiskFile.blocksFile "p" (some ⟨[]⟩)]).1.databaseQueryCache = [] ∧
      (loadCache {} [DiskFile.metaFile
          (some ⟨some 1, some [("p", 5)], some [("b", "p")]⟩),
        DiskFile.blocksFile "p" (some ⟨[]⟩)]).1.databaseCache
        = ({} : CacheState).databaseCache ∧
      (loadCache {} [DiskFile.metaFile
          (some ⟨some 1, some [("p", 5)], some [("b", "p")]⟩),
        DiskFile.blocksFile "p" (some ⟨[]⟩)]).1.pageCache
        = ({} : CacheState).pageCache ∧
      (loadCache {} [DiskFile.metaFile
          (some ⟨some 1, some [("p", 5)], some [("b", "p")]⟩),
        DiskFile.blocksFile "p" (some ⟨[]⟩)]).1.updatedAtMap
        = ({} : CacheState).updatedAtMap ∧
      DiskFile.metaFile
          (some ⟨some CACHE_VERSION, some ({} : CacheState).updatedAtMap,
            some [("b", "p")]⟩)
        ∈ (loadCache {} [DiskFile.metaFile
            (some ⟨some 1, some [("p", 5)], some [("b", "p")]⟩),
          DiskFile.blocksFile "p" (some ⟨[]⟩)]).2) ∧
    ((loadCache {} c3ctrDisk).1 = { cacheUpdatedAtMap := [("x", 1)] } ∧
      (loadCache {} c3ctrDisk).2 = ([] : Disk)) ∧
    ((loadCache {} [DiskFile.metaFile none]).1
        = { cacheUpdatedAtMap := ({} : CacheState).cacheUpdatedAtMap } ∧
      (loadCache {} [DiskFile.metaFile none]).2 = ([] : Disk)) ∧
    ((loadCache {} [DiskFile.blocksFile "x" none]).1
        = { cacheUpdatedAtMap := ({} : CacheState).cacheUpdatedAtMap } ∧
      (loadCache {} [DiskFile.blocksFile "x" none]).2 = ([] : Disk)) :=
  ⟨(c3_loadCache {} _ ⟨some 1, some [("p", 5)], some [("b", "p")]⟩
      [("p", 5)] [("b", "p")]).1 rfl (by decide) (by decide) rfl rfl,
   (c3_loadCache {} c3ctrDisk ⟨some 3, some [("x", 1)], some [("b", "x")]⟩
      [("x", 1)] [("b", "x")]).2.1 rfl (by decide) rfl,
   (c3_loadCache {} [DiskFile.metaFile none]
      ⟨none, none, none⟩ [] []).2.2.1 rfl,
   (c3_loadCache {} [DiskFile.blocksFile "x" none]
      ⟨none, none, none⟩ [] []).2.2.2 rfl (by decide)⟩

/-! ## Hierarchy tree builder (`src/hierarchy.ts`)

`Post` keeps the fields the builder reads (`id`, `slug`, the nullable
`parentId` — `none` = JS `undefined`, `some none` = JS `null` — and the
relation entries of `additionalProperties` as lists of referenced ids).
`HNode` is the `HierarchyNode` record; the source mutates nodes in place
across the fixed phases, which the embedding renders as one pure function
per phase.  Phase functions that recurse through the (possibly cyclic,
untrusted) parent graph or through the rose trees are fuel-indexed so that
every definition stays kernel-executable; the `HeightLe` lemmas below show
the pipeline's fuel (`posts.length + 2`) always suffices.  The
`console.warn` calls that do not change state (dangling parent, multiple
relation targets, duplicate slug) are log-only and not modelled; the
cycle-breaking warnings, which the claims inspect, are collected in
`warns`.  `updatePostsFromTree` only copies tree facts back onto the caller
posts and is not needed by any claim. -/

structure Post where
  id : String
  slug : String
  parentId : Option (Option String) := none
  additionalProperties : List (String × List String) := []
deriving DecidableEq, Repr

/-- `getParentIdFromPost`: the post-level `parentId` wins when defined
(JS `!== undefined`); otherwise the first entry of the designated relation
property is used when it exists and its id is truthy. -/
def getParentIdFromPost (post : Post) (relProp : String) : Option String :=
  match post.parentId with
  | some v => v
  | none =>
    match aget relProp post.additionalProperties with
    | some rel =>
      match rel with
      | [] => none
      | h :: _ => if h = "" then none else some h
    | none => none

/-- The parent pointer the relation-linkage phase stores for one post:
kept only when truthy and present in the node map, a dangling reference is
demoted to a root (with a log-only warning). -/
def linkValue (ids : List String) (relProp : String) (p : Post) :
    Option String :=
  match getParentIdFromPost p relProp with
  | some pid => if pid = "" then none else if pid ∈ ids then some pid else none
  | none => none

/-- Node materialization + relation linkage: the node map reduced to the
`parentId` field (`id ↦ parent-or-null`), in post order. -/
def nodesInit (posts : List Post) (relProp : String) :
    List (String × Option String) :=
  posts.map fun p => (p.id, linkValue (posts.map Post.id) relProp p)

/-! ### Cycle detection and breaking (`detectAndBreakCycles`) -/

/-- Mutable state of the DFS: the node map's parent pointers, the global
visited set, and the ids of the demoted (warned-about) nodes. -/
structure DfsState where
  pm : List (String × Option String)
  visited : List String
  warns : List String
deriving DecidableEq, Repr

/-- The source's recursive `dfs(nodeId)`: `true` when `nodeId` is on the
current stack (a cycle); a node whose parent-walk reports a cycle has its
`parentId` forced to null and is warned about.  The recursion always
terminates (each nested call moves a fresh key into the visited set);
`dfs_isSome` below shows the pipeline's fuel is sufficient. -/
def dfs : Nat → DfsState → List String → String → Option (Bool × DfsState)
  | 0, _, _, _ => none
  | fuel + 1, st, stack, id =>
    if id ∈ stack then some (true, st)
    else if id ∈ st.visited then some (false, st)
    else
      let st₁ := { st with visited := id :: st.visited }
      match aget id st₁.pm with
      | none => some (false, st₁)
      | some none => some (false, st₁)
      | some (some p) =>
        if p = "" then some (false, st₁)
        else
          match dfs fuel st₁ (id :: stack) p with
          | none => none
          | some (true, st₂) =>
            some (false,
              { st₂ with pm := aset id none st₂.pm, warns := id :: st₂.warns })
          | some (false, st₂) => some (false, st₂)

/-- `for (const nodeId of nodeMap.keys()) dfs(nodeId)`. -/
def runDfs (fuel : Nat) : List String → DfsState → Option DfsState
  | [], st => some st
  | k :: ks, st =>
    match dfs fuel st [] k with
    | none => none
    | some (_, st') => runDfs fuel ks st'

/-- `detectAndBreakCycles(nodeMap)`: run the DFS from every key; returns the
updated parent pointers and the demoted ids.  The `none` fallback is dead
code by `runDfs_isSome`. -/
def detectAndBreakCycles (pm : List (String × Option String)) :
    List (String × Option String) × List String :=
  match runDfs (pm.length + 1) (pm.map Prod.fst) ⟨pm, [], []⟩ with
  | some st => (st.pm, st.warns)
  | none => (pm, [])

/-! ### The tree structure and the path/dedup phases -/

inductive HNode where
  | mk (post : Post) (children : List HNode) (path : List String) (depth : Nat)

def HNode.post : HNode → Post
  | mk p _ _ _ => p

def HNode.children : HNode → List HNode
  | mk _ c _ _ => c

def HNode.path : HNode → List String
  | mk _ _ pa _ => pa

def HNode.depth : HNode → Nat
  | mk _ _ _ d => d

def HNode.slug (t : HNode) : String := t.post.slug

def HNode.nid (t : HNode) : String := t.post.id

/-- Root collection and children linkage as a rose-tree build: the children
of a node are the posts (in input order) whose final parent pointer names
it.  Fuel bounds the depth; any fuel beyond the longest root-to-leaf chain
is sufficient. -/
def buildNodeF (pm : List (String × Option String)) (posts : List Post) :
    Nat → Post → HNode
  | 0, p => HNode.mk p [] [] 0
  | fuel + 1, p =>
    HNode.mk p
      ((posts.filter fun q => decide (aget q.id pm = some (some p.id))).map
        (buildNodeF pm posts fuel))
      [] 0

/-- Roots are the nodes whose parent pointer is null, in input order. -/
def buildForest (pm : List (String × Option String)) (posts : List Post)
    (fuel : Nat) : List HNode :=
  (posts.filter fun p => decide (aget p.id pm = some none)).map
    (buildNodeF pm posts fuel)

/-- `computePaths(nodes, parentPath)`: pre-order walk setting
`pathSegments = parentPath ++ [slug]` and `depth = |pathSegments| - 1`. -/
def computePathsF : Nat → List String → HNode → HNode
  | 0, _, t => t
  | fuel + 1, parentPath, HNode.mk p c _ _ =>
    let path := parentPath ++ [p.slug]
    HNode.mk p (c.map (computePathsF fuel path)) path (path.length - 1)

/-- The post id with every hyphen removed, truncated to 8 characters
(`id.replace(regex-all-hyphens, "").slice(0, 8)`). -/
def shortIdOf (id : String) : String :=
  String.mk ((id.data.filter fun ch => ch ≠ '-').take 8)

/-- One member of a duplicate-slug sibling group: rewrite the slug, rebuild
the node's own `pathSegments` from its current parent prefix, and recompute
the descendants' paths. -/
def renameNode (fuel : Nat) : HNode → HNode
  | HNode.mk p c path d =>
    let slug' := p.slug ++ "-" ++ shortIdOf p.id
    let path' := path.dropLast ++ [slug']
    HNode.mk { p with slug := slug' } (c.map (computePathsF fuel path')) path' d

/-- The per-sibling-group pass of `resolveSlugDuplicates`: every member of a
group of two or more identical slugs is renamed. -/
def dedupPass (fuel : Nat) (nodes : List HNode) : List HNode :=
  let slugs := nodes.map HNode.slug
  nodes.map fun t => if 2 ≤ slugs.count t.slug then renameNode fuel t else t

/-- `resolveSlugDuplicates(nodes)`: dedup this sibling group, then recurse
into every (possibly renamed) node's children. -/
def resolveSlugDuplicatesF : Nat → List HNode → List HNode
  | 0, nodes => nodes
  | fuel + 1, nodes =>
    (dedupPass fuel nodes).map fun t =>
      match t with
      | HNode.mk p c path d => HNode.mk p (resolveSlugDuplicatesF fuel c) path d

/-- Flatten a forest into the `nodeMap` (`id ↦ node`) view. -/
def flattenF : Nat → List HNode → List (String × HNode)
  | 0, _ => []
  | fuel + 1, ts => ts.flatMap fun t => (t.nid, t) :: flattenF fuel t.children

/-- The `HierarchyTree` result (plus the final parent pointers and the
cycle warnings, which the source emits as side effects). -/
structure HTree where
  roots : List HNode
  nodeMap : List (String × HNode)
  pm : List (String × Option String)
  warns : List String

/-- `buildRelationTree(posts, relationProperty)`: materialize + link,
break cycles, collect roots and children, compute paths, deduplicate slugs.
The fuel `posts.length + 2` dominates every chain the acyclic-after-breaking
structure can produce (see the `HeightLe` lemmas). -/
def buildRelationTree (posts : List Post) (relProp : String) : HTree :=
  let pm₀ := nodesInit posts relProp
  let bd := detectAndBreakCycles pm₀
  let fuel := posts.length + 2
  let roots₀ := buildForest bd.1 posts (posts.length + 1)
  let roots₁ := roots₀.map (computePathsF fuel [])
  let roots₂ := resolveSlugDuplicatesF fuel roots₁
  { roots := roots₂
    nodeMap := flattenF fuel roots₂
    pm := bd.1
    warns := bd.2 }

/-! ### Derived queries (`getHierarchyDir`, `getEffectiveSlug`,
`computeRelativePath`)

The source joins segment lists with `"/"` and re-splits them; the embedding
keeps the segment lists (the round trip is the identity for the nonempty,
separator-free slugs the builder produces). -/

/-- Output-directory segments of a post: its own path for an index node,
the parent's path for a leaf, empty for a root leaf. -/
def getHierarchyDirSegs (postId : String) (tree : HTree) : List String :=
  match aget postId tree.nodeMap with
  | none => []
  | some n =>
    if 0 < n.children.length then n.path
    else if n.path.length ≤ 1 then []
    else n.path.dropLast

/-- `getHierarchyDir`: the directory as a string (`""` or `segs/`). -/
def getHierarchyDir (postId : String) (tree : HTree) : String :=
  match getHierarchyDirSegs postId tree with
  | [] => ""
  | segs => String.intercalate "/" segs ++ "/"

/-- `getEffectiveSlug`: `"index"` for a node with children, else its slug. -/
def getEffectiveSlug (postId : String) (tree : HTree) : String :=
  match aget postId tree.nodeMap with
  | none => ""
  | some n => if 0 < n.children.length then "index" else n.post.slug

/-- `getAbsoluteHierarchyPath`: the node's own segments joined. -/
def getAbsoluteHierarchyPath (postId : String) (tree : HTree) : String :=
  match aget postId tree.nodeMap with
  | none => ""
  | some n => String.intercalate "/" n.path

def commonPrefixLen : List String → List String → Nat
  | a :: as, b :: bs => if a = b then commonPrefixLen as bs + 1 else 0
  | _, _ => 0

/-- `computeRelativePath(fromPost, toPost, tree)`. -/
def computeRelativePath (fromPost : Option Post) (toPost : Post)
    (tree : HTree) : String :=
  match fromPost with
  | none => getAbsoluteHierarchyPath toPost.id tree
  | some f =>
    let fromParts := getHierarchyDirSegs f.id tree
    let toParts := getHierarchyDirSegs toPost.id tree
    let toSlug :=
      match getEffectiveSlug toPost.id tree with
      | "" => if toPost.slug = "" then toPost.id else toPost.slug
      | e => e
    let common := commonPrefixLen fromParts toParts
    let ups := fromParts.length - common
    let downs := toParts.drop common
    let parts := List.replicate ups ".." ++ downs
    if toSlug = "index" then
      match String.intercalate "/" parts with
      | "" => "."
      | r => r
    else
      match String.intercalate "/" (parts ++ [toSlug]) with
      | "" => toSlug
      | r => r

/-! ## Height bounds and the path invariant -/

/-- `HeightLe n t`: every root-to-leaf chain of `t` has at most `n` nodes. -/
inductive HeightLe : Nat → HNode → Prop
  | mk {n : Nat} {p : Post} {c : List HNode} {path : List String} {d : Nat} :
      (∀ t ∈ c, HeightLe n t) → HeightLe (n + 1) (HNode.mk p c path d)

theorem HeightLe.mono {n : Nat} {t : HNode} (h : HeightLe n t) :
    ∀ {m : Nat}, n ≤ m → HeightLe m t := by
  induction h with
  | @mk n p c path d hc ih =>
    intro m hm
    obtain ⟨m', rfl⟩ : ∃ m', m = m' + 1 := ⟨m - 1, by omega⟩
    exact HeightLe.mk fun t ht => ih t ht (by omega)

theorem buildNodeF_height (pm : List (String × Option String))
    (posts : List Post) :
    ∀ (fuel : Nat) (p : Post), HeightLe (fuel + 1) (buildNodeF pm posts fuel p) := by
  intro fuel
  induction fuel with
  | zero =>
    intro p
    exact HeightLe.mk (by intro t ht; simp at ht)
  | succ fuel ih =>
    intro p
    refine HeightLe.mk ?_
    intro t ht
    simp only [List.mem_map] at ht
    obtain ⟨q, _, rfl⟩ := ht
    exact ih q

/-- The path invariant of the spec: every node's `pathSegments` is its
parent's prefix plus its own current slug, and `depth = |pathSegments| - 1`. -/
inductive PathInv : List String → HNode → Prop
  | mk {pp : List String} {p : Post} {c : List HNode} {path : List String}
      {d : Nat} :
      path = pp ++ [p.slug] →
      d = path.length - 1 →
      (∀ t ∈ c, PathInv path t) →
      PathInv pp (HNode.mk p c path d)

theorem computePathsF_pathInv :
    ∀ {n : Nat} {t : HNode}, HeightLe n t → ∀ (fuel : Nat), n ≤ fuel →
      ∀ (pp : List String), PathInv pp (computePathsF fuel pp t) := by
  intro n t h
  induction h with
  | @mk n p c path d hc ih =>
    intro fuel hfuel pp
    obtain ⟨f', rfl⟩ : ∃ f', fuel = f' + 1 := ⟨fuel - 1, by omega⟩
    simp only [computePathsF]
    refine PathInv.mk rfl rfl ?_
    intro t' ht'
    simp only [List.mem_map] at ht'
    obtain ⟨u, hu, rfl⟩ := ht'
    exact ih u hu f' (by omega) _

theorem computePathsF_height :
    ∀ {n : Nat} {t : HNode}, HeightLe n t → ∀ (fuel : Nat), n ≤ fuel →
      ∀ (pp : List String), HeightLe n (computePathsF fuel pp t) := by
  intro n t h
  induction h with
  | @mk n p c path d hc ih =>
    intro fuel hfuel pp
    obtain ⟨f', rfl⟩ : ∃ f', fuel = f' + 1 := ⟨fuel - 1, by omega⟩
    simp only [computePathsF]
    refine HeightLe.mk ?_
    intro t' ht'
    simp only [List.mem_map] at ht'
    obtain ⟨u, hu, rfl⟩ := ht'
    exact ih u hu f' (by omega) _

/-! ## Claim C7 -/

/-- Upward reachability through the linked parent pointers. -/
inductive PReach (pm : List (String × Option String)) : String → String → Prop
  | step {x y : String} : aget x pm = some (some y) → PReach pm x y
  | trans {x y z : String} :
      aget x pm = some (some y) → PReach pm y z → PReach pm x z

/-- The parent links contain no cycle. -/
def PAcyclic (pm : List (String × Option String)) : Prop :=
  ∀ x, ¬ PReach pm x x

theorem pacyclic_of_no_links (pm : List (String × Option String))
    (h : ∀ e ∈ pm, e.2 = none) : PAcyclic pm := by
  intro x hx
  cases hx with
  | step hstep =>
    have hmem := aget_some_mem hstep
    have := h _ hmem
    simp at this
  | trans hstep _ =>
    have hmem := aget_some_mem hstep
    have := h _ hmem
    simp at this

theorem resolveF_pathInv :
    ∀ (fuel n : Nat) (nodes : List HNode) (pp : List String),
      (∀ t ∈ nodes, HeightLe n t) → n ≤ fuel →
      (∀ t ∈ nodes, PathInv pp t) →
      ∀ t ∈ resolveSlugDuplicatesF fuel nodes, PathInv pp t := by
  intro fuel
  induction fuel with
  | zero =>
    intro n nodes pp _ _ hpaths t ht
    exact hpaths t ht
  | succ fuel ih =>
    intro n nodes pp hheights hfuel hpaths t' ht'
    simp only [resolveSlugDuplicatesF, List.mem_map] at ht'
    obtain ⟨u, hu, rfl⟩ := ht'
    simp only [dedupPass, List.mem_map] at hu
    obtain ⟨t, ht, rfl⟩ := hu
    have hheight := hheights t ht
    have hpath := hpaths t ht
    by_cases hdup :
        2 ≤ (nodes.map HNode.slug).count t.slug
    · rw [if_pos hdup]
      cases hpath with
      | @mk _ p c path d hpeq hdeq hcpaths =>
        cases hheight with
        | @mk n' _ _ _ _ hcheights =>
          have hn' : n' ≤ fuel := by omega
          simp only [renameNode]
          have hdrop : path.dropLast = pp := by
            rw [hpeq]; exact List.dropLast_concat
          refine PathInv.mk (by rw [hdrop]) ?_ ?_
          · rw [hdeq, hpeq]
            simp [List.dropLast_concat]
          · intro v hv
            refine ih n'
              (c.map (computePathsF fuel (path.dropLast ++
                [p.slug ++ "-" ++ shortIdOf p.id])))
              (path.dropLast ++ [p.slug ++ "-" ++ shortIdOf p.id])
              ?_ hn' ?_ v hv
            · intro w hw
              simp only [List.mem_map] at hw
              obtain ⟨x, hx, rfl⟩ := hw
              exact computePathsF_height (hcheights x hx) fuel hn' _
            · intro w hw
              simp only [List.mem_map] at hw
              obtain ⟨x, hx, rfl⟩ := hw
              exact computePathsF_pathInv (hcheights x hx) fuel hn' _
    · rw [if_neg hdup]
      cases hpath with
      | @mk _ p c path d hpeq hdeq hcpaths =>
        cases hheight with
        | @mk n' _ _ _ _ hcheights =>
          refine PathInv.mk hpeq hdeq ?_
          intro v hv
          exact ih n' c path hcheights (by omega) hcpaths v hv

/-- C7: for a post list whose parent relation links are acyclic and
reference only posts present in the list (ids unique), `buildRelationTree`
returns a forest in which every non-root node's `pathSegments` is its
parent's `pathSegments` plus exactly its own current slug, and every node's
`depth` is `pathSegments.length - 1` (the `PathInv` invariant from every
root down). -/
theorem c7_relation_forest_paths (posts : List Post) (relProp : String)
    (hnodup : (posts.map Post.id).Nodup)
    (hpresent : ∀ p ∈ posts, ∀ pid,
      getParentIdFromPost p relProp = some pid → pid ≠ "" →
      pid ∈ posts.map Post.id)
    (hacyc : PAcyclic (nodesInit posts relProp)) :
    ∀ t ∈ (buildRelationTree posts relProp).roots, PathInv [] t := by
  intro t ht
  have hroots :
      (buildRelationTree posts relProp).roots
        = resolveSlugDuplicatesF (posts.length + 2)
            ((buildForest (detectAndBreakCycles (nodesInit posts relProp)).1
                posts (posts.length + 1)).map
              (computePathsF (posts.length + 2) [])) := rfl
  rw [hroots] at ht
  refine resolveF_pathInv (posts.length + 2) (posts.length + 2) _ [] ?_
    (le_refl _) ?_ t ht
  · intro u hu
    simp only [List.mem_map] at hu
    obtain ⟨v, hv, rfl⟩ := hu
    simp only [buildForest, List.mem_map] at hv
    obtain ⟨q, _, rfl⟩ := hv
    exact computePathsF_height
      (buildNodeF_height _ _ (posts.length + 1) q) _ (by omega) _
  · intro u hu
    simp only [List.mem_map] at hu
    obtain ⟨v, hv, rfl⟩ := hu
    simp only [buildForest, List.mem_map] at hv
    obtain ⟨q, _, rfl⟩ := hv
    exact computePathsF_pathInv
      (buildNodeF_height _ _ (posts.length + 1) q) _ (by omega) _

/-- Witness for C7 at a concrete one-post list with no links. -/
theorem c7_relation_forest_paths_witness :
    PathInv [] (HNode.mk ⟨"p1", "s1", some none, []⟩ [] ["s1"] 0) :=
  c7_relation_forest_paths [⟨"p1", "s1", some none, []⟩] "parent"
    (by decide)
    (by
      intro p hp pid hpid hne
      simp only [List.mem_singleton] at hp
      subst hp
      simp [getParentIdFromPost] at hpid)
    (pacyclic_of_no_links _ (by decide))
    (HNode.mk ⟨"p1", "s1", some none, []⟩ [] ["s1"] 0)
    (by
      rw [show (buildRelationTree [⟨"p1", "s1", some none, []⟩] "parent").roots
        = [HNode.mk ⟨"p1", "s1", some none, []⟩ [] ["s1"] 0] from rfl]
      exact List.mem_singleton.mpr rfl)

/-! ## Claim C9 -/

/-- The spec's worked example: `root → section → {child-a, child-b}`,
`root → leaf-at-root`, standalone root `standalone`. -/
def exPosts : List Post :=
  [⟨"root", "root", some none, []⟩,
   ⟨"section", "section", some (some "root"), []⟩,
   ⟨"child-a", "child-a", some (some "section"), []⟩,
   ⟨"child-b", "child-b", some (some "section"), []⟩,
   ⟨"leaf-at-root", "leaf-at-root", some (some "root"), []⟩,
   ⟨"standalone", "standalone", some none, []⟩]

def exTree : HTree := buildRelationTree exPosts "parent"

def exChildA : Post := ⟨"child-a", "child-a", some (some "section"), []⟩
def exChildB : Post := ⟨"child-b", "child-b", some (some "section"), []⟩
def exSection : Post := ⟨"section", "section", some (some "root"), []⟩
def exLeafAtRoot : Post := ⟨"leaf-at-root", "leaf-at-root", some (some "root"), []⟩
def exStandalone : Post := ⟨"standalone", "standalone", some none, []⟩

/-- C9: the four relative-path examples of the spec hold on the built tree,
and with no from-node `computeRelativePath` returns the target's own path
segments joined. -/
theorem c9_relativePath :
    computeRelativePath (some exChildA) exChildB exTree = "child-b" ∧
    computeRelativePath (some exChildA) exSection exTree = "." ∧
    computeRelativePath (some exChildA) exLeafAtRoot exTree = "../leaf-at-root" ∧
    computeRelativePath (some exStandalone) exChildA exTree
      = "root/section/child-a" ∧
    (∀ (tree : HTree) (p : Post) (n : HNode),
      aget p.id tree.nodeMap = some n →
      computeRelativePath none p tree = String.intercalate "/" n.path) := by
  refine ⟨by decide, by decide, by decide, by decide, ?_⟩
  intro tree p n h
  simp [computeRelativePath, getAbsoluteHierarchyPath, h]

/-- Witness for C9's universally quantified fallback clause, instantiated
at the example tree's standalone node. -/
theorem c9_relativePath_witness :
    computeRelativePath none exStandalone exTree
      = String.intercalate "/"
          (HNode.path (HNode.mk exStandalone [] ["standalone"] 0)) :=
  c9_relativePath.2.2.2.2 exTree exStandalone
    (HNode.mk exStandalone [] ["standalone"] 0) (by rfl)

/-! ## Claim C8: slug deduplication -/

/-- Modelled from the spec's words: the rewritten slug of a duplicate-group
member — the original slug plus `"-"` plus the first 8 characters of its ID
with hyphens removed. -/
def specRenamedSlug (t : HNode) : String := t.slug ++ "-" ++ shortIdOf t.nid

/-- Modelled from the spec's words: the final slug of a sibling whose
group's slugs are `gs` — renamed exactly when its slug occurs at least
twice among the siblings. -/
def specFinalSlug (gs : List String) (t : HNode) : String :=
  if 2 ≤ gs.count t.slug then specRenamedSlug t else t.slug

/-- Modelled from the spec's words: the deduplicated forest corresponds
node-for-node (same ids, same order, same shape) to the input forest, and
every node's slug is `specFinalSlug` of its original sibling group. -/
inductive SlugRel : List String → HNode → HNode → Prop
  | mk {gs : List String} {p : Post} {c : List HNode} {path : List String}
      {d : Nat} {p' : Post} {c' : List HNode} {path' : List String} {d' : Nat} :
      p'.id = p.id →
      p'.slug = (if 2 ≤ gs.count p.slug
        then p.slug ++ "-" ++ shortIdOf p.id else p.slug) →
      c'.length = c.length →
      (∀ (i : Nat) (x y : HNode), c.get? i = some x → c'.get? i = some y →
        SlugRel (c.map HNode.slug) x y) →
      SlugRel gs (HNode.mk p c path d) (HNode.mk p' c' path' d')

/-- Modelled from the spec's words: the renamed slugs of every sibling
group are pairwise distinct and collide with no sibling's kept slug — the
freshness that the claim's final uniqueness conjunct needs. -/
inductive FreshSpec : List HNode → Prop
  | mk {nodes : List HNode} :
      (nodes.map (specFinalSlug (nodes.map HNode.slug))).Nodup →
      (∀ t ∈ nodes, FreshSpec t.children) → FreshSpec nodes

/-- No two sibling nodes share an identical slug, at any level. -/
inductive SibNodup : List HNode → Prop
  | mk {nodes : List HNode} :
      (nodes.map HNode.slug).Nodup →
      (∀ t ∈ nodes, SibNodup t.children) → SibNodup nodes

@[simp] theorem HNode.post_mk (p : Post) (c : List HNode) (pa : List String)
    (d : Nat) : HNode.post (HNode.mk p c pa d) = p := rfl

@[simp] theorem HNode.children_mk (p : Post) (c : List HNode)
    (pa : List String) (d : Nat) : HNode.children (HNode.mk p c pa d) = c := rfl

@[simp] theorem HNode.path_mk (p : Post) (c : List HNode) (pa : List String)
    (d : Nat) : HNode.path (HNode.mk p c pa d) = pa := rfl

@[simp] theorem HNode.slug_mk (p : Post) (c : List HNode) (pa : List String)
    (d : Nat) : HNode.slug (HNode.mk p c pa d) = p.slug := rfl

@[simp] theorem HNode.nid_mk (p : Post) (c : List HNode) (pa : List String)
    (d : Nat) : HNode.nid (HNode.mk p c pa d) = p.id := rfl

theorem computePathsF_slug (fuel : Nat) (pp : List String) (t : HNode) :
    HNode.slug (computePathsF fuel pp t) = HNode.slug t := by
  cases fuel with
  | zero => rfl
  | succ f => cases t with | mk p c path d => rfl

theorem computePathsF_nid (fuel : Nat) (pp : List String) (t : HNode) :
    HNode.nid (computePathsF fuel pp t) = HNode.nid t := by
  cases fuel with
  | zero => rfl
  | succ f => cases t with | mk p c path d => rfl

theorem map_slug_map_computePathsF (fuel : Nat) (pp : List String)
    (c : List HNode) :
    (c.map (computePathsF fuel pp)).map HNode.slug = c.map HNode.slug := by
  rw [List.map_map]
  refine List.map_congr_left ?_
  intro x _
  exact computePathsF_slug fuel pp x

/-- `SlugRel` only inspects the left tree's ids, slugs and shape, all of
which `computePathsF` preserves. -/
theorem slugRel_of_computePaths :
    ∀ {gs : List String} {u y : HNode}, SlugRel gs u y →
      ∀ (fuel : Nat) (pp : List String) (x : HNode),
        u = computePathsF fuel pp x → SlugRel gs x y := by
  intro gs u y h
  induction h with
  | @mk gs p c path d p' c' path' d' hid hslug hlen hch ih =>
    intro fuel pp x hu
    cases fuel with
    | zero =>
      rw [computePathsF] at hu
      rw [← hu]
      exact SlugRel.mk hid hslug hlen hch
    | succ f =>
      cases x with
      | mk q cq pathq dq =>
        simp only [computePathsF] at hu
        injection hu with h1 h2 h3 h4
        subst h1
        refine SlugRel.mk hid hslug ?_ ?_
        · rw [hlen, h2, List.length_map]
        · intro i x' y' hx' hy'
          have hcx :
              c.get? i = some (computePathsF f (pp ++ [p.slug]) x') := by
            rw [h2, List.get?_map, hx']
            rfl
          have hrel := ih i _ y' hcx hy' f (pp ++ [p.slug]) x' rfl
          have hgs : c.map HNode.slug = cq.map HNode.slug := by
            rw [h2, map_slug_map_computePathsF]
          rw [hgs] at hrel
          exact hrel

theorem resolveF_succ_map_slug (fuel : Nat) (nodes : List HNode) :
    (resolveSlugDuplicatesF (fuel + 1) nodes).map HNode.slug
      = (dedupPass fuel nodes).map HNode.slug := by
  simp only [resolveSlugDuplicatesF, List.map_map]
  refine List.map_congr_left ?_
  intro t _
  cases t with
  | mk p c path d => rfl

theorem dedupPass_map_slug (fuel : Nat) (nodes : List HNode) :
    (dedupPass fuel nodes).map HNode.slug
      = nodes.map (specFinalSlug (nodes.map HNode.slug)) := by
  simp only [dedupPass, List.map_map]
  refine List.map_congr_left ?_
  intro t _
  simp only [Function.comp]
  by_cases hdup : 2 ≤ (nodes.map HNode.slug).count t.slug
  · cases t with
    | mk p c path d =>
      simp only [if_pos hdup, specFinalSlug, if_pos hdup]
      rfl
  · cases t with
    | mk p c path d =>
      simp only [if_neg hdup, specFinalSlug]

/-- The slugs of a deduplicated sibling group are exactly the spec's
`specFinalSlug` transform of the original group. -/
theorem resolveF_slugs :
    ∀ (fuel n : Nat) (nodes : List HNode),
      (∀ t ∈ nodes, HeightLe n t) → n ≤ fuel →
      (resolveSlugDuplicatesF fuel nodes).map HNode.slug
        = nodes.map (specFinalSlug (nodes.map HNode.slug)) := by
  intro fuel
  cases fuel with
  | zero =>
    intro n nodes hh hf
    cases nodes with
    | nil => rfl
    | cons t ts =>
      have := hh t (List.mem_cons_self _ _)
      cases this with
      | mk hc => omega
  | succ fuel =>
    intro n nodes _ _
    rw [resolveF_succ_map_slug, dedupPass_map_slug]

/-- The deduplicated forest realizes the spec's rename relation. -/
theorem resolveF_slugRel :
    ∀ (fuel n : Nat) (nodes : List HNode),
      (∀ t ∈ nodes, HeightLe n t) → n ≤ fuel →
      (resolveSlugDuplicatesF fuel nodes).length = nodes.length ∧
      (∀ (i : Nat) (x y : HNode), nodes.get? i = some x →
        (resolveSlugDuplicatesF fuel nodes).get? i = some y →
        SlugRel (nodes.map HNode.slug) x y) := by
  intro fuel
  induction fuel with
  | zero =>
    intro n nodes hh hf
    cases nodes with
    | nil =>
      refine ⟨rfl, ?_⟩
      intro i x y hx _
      simp at hx
    | cons t ts =>
      have := hh t (List.mem_cons_self _ _)
      cases this with
      | mk hc => omega
  | succ fuel ih =>
    intro n nodes hh hf
    constructor
    · simp [resolveSlugDuplicatesF, dedupPass]
    · intro i x y hx hy
      simp only [resolveSlugDuplicatesF, dedupPass, List.get?_map, hx,
        Option.map_some'] at hy
      have hy' :
          (match (if 2 ≤ (nodes.map HNode.slug).count x.slug
              then renameNode fuel x else x) with
            | HNode.mk p c path d =>
              HNode.mk p (resolveSlugDuplicatesF fuel c) path d) = y :=
        Option.some.inj hy
      have hxmem : x ∈ nodes := by
        have := List.get?_mem hx
        exact this
      have hheight := hh x hxmem
      cases hheight with
      | @mk n' p c path d hcheights =>
        have hn' : n' ≤ fuel := by omega
        by_cases hdup : 2 ≤ (nodes.map HNode.slug).count
            (HNode.slug (HNode.mk p c path d))
        · rw [if_pos hdup] at hy'
          simp only [renameNode] at hy'
          rw [← hy']
          refine SlugRel.mk rfl ?_ ?_ ?_
          · simp only [HNode.slug_mk] at hdup
            rw [if_pos hdup]
          · have hlen := (ih n'
              (c.map (computePathsF fuel (path.dropLast ++
                [p.slug ++ "-" ++ shortIdOf p.id])))
              (fun w hw => by
                simp only [List.mem_map] at hw
                obtain ⟨v, hv, rfl⟩ := hw
                exact computePathsF_height (hcheights v hv) fuel hn' _)
              hn').1
            rw [hlen, List.length_map]
          · intro j x' y' hx' hy2
            have hget :
                (c.map (computePathsF fuel (path.dropLast ++
                  [p.slug ++ "-" ++ shortIdOf p.id]))).get? j
                  = some (computePathsF fuel (path.dropLast ++
                    [p.slug ++ "-" ++ shortIdOf p.id]) x') := by
              rw [List.get?_map, hx']
              rfl
            have hrel := (ih n'
              (c.map (computePathsF fuel (path.dropLast ++
                [p.slug ++ "-" ++ shortIdOf p.id])))
              (fun w hw => by
                simp only [List.mem_map] at hw
                obtain ⟨v, hv, rfl⟩ := hw
                exact computePathsF_height (hcheights v hv) fuel hn' _)
              hn').2 j _ y' hget hy2
            have hrel' := slugRel_of_computePaths hrel fuel _ x' rfl
            rwa [map_slug_map_computePathsF] at hrel'
        · rw [if_neg hdup] at hy'
          rw [← hy']
          refine SlugRel.mk rfl ?_ ?_ ?_
          · simp only [HNode.slug_mk] at hdup
            rw [if_neg hdup]
          · exact (ih n' c hcheights hn').1
          · intro j x' y' hx' hy2
            exact (ih n' c hcheights hn').2 j x' y' hx' hy2

/-- `FreshSpec` only inspects slugs, ids and shape, all preserved by
`computePathsF`. -/
theorem freshSpec_map_computePaths :
    ∀ {c : List HNode}, FreshSpec c → ∀ (fuel : Nat) (pp : List String),
      FreshSpec (c.map (computePathsF fuel pp)) := by
  intro c h
  induction h with
  | @mk nodes hnodup hch ih =>
    intro fuel pp
    refine FreshSpec.mk ?_ ?_
    · rw [map_slug_map_computePathsF, List.map_map]
      have hpt : ∀ x ∈ nodes,
          (specFinalSlug (nodes.map HNode.slug) ∘ computePathsF fuel pp) x
            = specFinalSlug (nodes.map HNode.slug) x := by
        intro x _
        simp only [Function.comp, specFinalSlug, specRenamedSlug,
          computePathsF_slug, computePathsF_nid]
      rw [List.map_congr_left hpt]
      exact hnodup
    · intro t ht
      simp only [List.mem_map] at ht
      obtain ⟨x, hx, rfl⟩ := ht
      cases fuel with
      | zero => exact hch x hx
      | succ f =>
        cases x with
        | mk p cc pth dd => exact ih _ hx f (pp ++ [p.slug])

/-- Under the freshness hypothesis, no duplicate slugs remain in any
sibling group after deduplication. -/
theorem resolveF_nodup :
    ∀ (fuel n : Nat) (nodes : List HNode),
      (∀ t ∈ nodes, HeightLe n t) → n ≤ fuel → FreshSpec nodes →
      SibNodup (resolveSlugDuplicatesF fuel nodes) := by
  intro fuel
  induction fuel with
  | zero =>
    intro n nodes hh hf hfresh
    cases nodes with
    | nil =>
      exact SibNodup.mk List.nodup_nil (fun t ht => absurd ht (List.not_mem_nil t))
    | cons t ts =>
      have := hh t (List.mem_cons_self _ _)
      cases this with
      | mk hc => omega
  | succ fuel ih =>
    intro n nodes hh hf hfresh
    cases hfresh with
    | mk hnodup hch =>
      refine SibNodup.mk ?_ ?_
      · rw [resolveF_succ_map_slug, dedupPass_map_slug]
        exact hnodup
      · intro t' ht'
        simp only [resolveSlugDuplicatesF, List.mem_map] at ht'
        obtain ⟨u, hu, rfl⟩ := ht'
        simp only [dedupPass, List.mem_map] at hu
        obtain ⟨t, ht, rfl⟩ := hu
        have hheight := hh t ht
        cases hheight with
        | @mk n' p c path d hcheights =>
          have hn' : n' ≤ fuel := by omega
          have hchc : FreshSpec c := hch _ ht
          by_cases hdup : 2 ≤ (nodes.map HNode.slug).count
              (HNode.slug (HNode.mk p c path d))
          · rw [if_pos hdup]
            simp only [renameNode, HNode.children_mk]
            refine ih n' _ ?_ hn' ?_
            · intro w hw
              simp only [List.mem_map] at hw
              obtain ⟨v, hv, rfl⟩ := hw
              exact computePathsF_height (hcheights v hv) fuel hn' _
            · exact freshSpec_map_computePaths hchc fuel _
          · rw [if_neg hdup]
            simp only [HNode.children_mk]
            exact ih n' c hcheights hn' hchc

/-- A concrete input on which C8, as stated, fails: two root siblings with
the identical slug `"dup"` whose ids share their first 8 hyphen-stripped
characters.  Both members are rewritten exactly as the claim prescribes —
yet the rewritten slugs coincide, so two siblings still share an identical
slug afterwards (the source never re-checks for collisions). -/
def c8ctrPosts : List Post :=
  [⟨"aaaaaaaa-1", "dup", some none, []⟩,
   ⟨"aaaaaaaa-2", "dup", some none, []⟩]

theorem c8_counterexample :
    ((buildRelationTree c8ctrPosts "parent").roots.map HNode.slug)
      = ["dup-aaaaaaaa", "dup-aaaaaaaa"] ∧
    ¬ ((buildRelationTree c8ctrPosts "parent").roots.map HNode.slug).Nodup := by
  decide

/-- C8 (amended): after path computation, the slug-deduplication pass
rewrites exactly the members of duplicate sibling groups to
`slug ++ "-" ++ first8(idWithoutHyphens)` (the `SlugRel` correspondence, in
order and at every level), recomputes `pathSegments` for every renamed node
and its descendants (the `PathInv` invariant is re-established for the
final slugs), and afterwards no two sibling nodes share an identical slug
*provided* the rewritten slugs collide neither with each other nor with the
other siblings' kept slugs (`FreshSpec`). -/
theorem c8_resolveSlugDuplicates (fuel n : Nat) (nodes : List HNode)
    (pp : List String)
    (hheights : ∀ t ∈ nodes, HeightLe n t) (hfuel : n ≤ fuel)
    (hpaths : ∀ t ∈ nodes, PathInv pp t) :
    ((resolveSlugDuplicatesF fuel nodes).length = nodes.length ∧
      ∀ (i : Nat) (x y : HNode), nodes.get? i = some x →
        (resolveSlugDuplicatesF fuel nodes).get? i = some y →
        SlugRel (nodes.map HNode.slug) x y) ∧
    (∀ t ∈ resolveSlugDuplicatesF fuel nodes, PathInv pp t) ∧
    (FreshSpec nodes → SibNodup (resolveSlugDuplicatesF fuel nodes)) :=
  ⟨resolveF_slugRel fuel n nodes hheights hfuel,
   resolveF_pathInv fuel n nodes pp hheights hfuel hpaths,
   fun hfresh => resolveF_nodup fuel n nodes hheights hfuel hfresh⟩

/-- Witness forest for C8: two sibling roots with the duplicate slug
`"dup"` but ids differing within their first 8 characters. -/
def c8witA : HNode := HNode.mk ⟨"aaaa-1", "dup", some none, []⟩ [] ["dup"] 0
def c8witB : HNode := HNode.mk ⟨"bbbb-2", "dup", some none, []⟩ [] ["dup"] 0

theorem c8_resolveSlugDuplicates_witness :
    ((resolveSlugDuplicatesF 1 [c8witA, c8witB]).length
        = ([c8witA, c8witB] : List HNode).length ∧
      ∀ (i : Nat) (x y : HNode), ([c8witA, c8witB] : List HNode).get? i = some x →
        (resolveSlugDuplicatesF 1 [c8witA, c8witB]).get? i = some y →
        SlugRel (([c8witA, c8witB] : List HNode).map HNode.slug) x y) ∧
    (∀ t ∈ resolveSlugDuplicatesF 1 [c8witA, c8witB], PathInv [] t) ∧
    (FreshSpec [c8witA, c8witB] →
      SibNodup (resolveSlugDuplicatesF 1 [c8witA, c8witB])) :=
  c8_resolveSlugDuplicates 1 1 [c8witA, c8witB] []
    (by
      intro t ht
      have hch : ∀ u ∈ ([] : List HNode), HeightLe 0 u := by
        intro u hu
        exact absurd hu (List.not_mem_nil u)
      rcases List.mem_cons.mp ht with rfl | ht'
      · exact HeightLe.mk hch
      · rcases List.mem_cons.mp ht' with rfl | ht''
        · exact HeightLe.mk hch
        · exact absurd ht'' (List.not_mem_nil t))
    (le_refl 1)
    (by
      intro t ht
      have hch : ∀ u ∈ ([] : List HNode), PathInv ["dup"] u := by
        intro u hu
        exact absurd hu (List.not_mem_nil u)
      rcases List.mem_cons.mp ht with rfl | ht'
      · exact PathInv.mk rfl rfl hch
      · rcases List.mem_cons.mp ht' with rfl | ht''
        · exact PathInv.mk rfl rfl hch
        · exact absurd ht'' (List.not_mem_nil t))

/-! ## Claim C6: cycle detection and breaking -/

theorem aset_length_of_aget_some {α : Type} {k : String} {v : α}
    {w : α} : ∀ {m : List (String × α)}, aget k m = some v →
      (aset k w m).length = m.length := by
  intro m
  induction m with
  | nil => intro h; simp [aget] at h
  | cons e t ih =>
    obtain ⟨a, b⟩ := e
    intro h
    by_cases ha : a = k
    · simp [aset, ha]
    · rw [aget_cons, if_neg ha] at h
      simp [aset, ha, ih h]

/-- The node demoted by a cycle break is the only kind of parent-map update
the DFS performs: every key keeps its pointer or has it forced to null, the
map's size is unchanged, visited and warning entries only accumulate. -/
theorem dfs_frame :
    ∀ (fuel : Nat) (st : DfsState) (stack : List String) (id : String)
      (r : Bool) (st' : DfsState),
      dfs fuel st stack id = some (r, st') →
      (∀ k, aget k st'.pm = aget k st.pm ∨ aget k st'.pm = some none) ∧
      (∀ w ∈ st.warns, w ∈ st'.warns) ∧
      st'.pm.length = st.pm.length := by
  intro fuel
  induction fuel with
  | zero => intro st stack id r st' h; cases h
  | succ fuel ih =>
    intro st stack id r st' h
    rw [dfs] at h
    by_cases hstack : id ∈ stack
    · rw [if_pos hstack] at h
      obtain ⟨rfl, rfl⟩ : r = true ∧ st' = st := by
        have := Option.some.inj h
        exact ⟨congrArg Prod.fst this |>.symm, congrArg Prod.snd this |>.symm⟩
      exact ⟨fun k => Or.inl rfl, fun w hw => hw, rfl⟩
    · rw [if_neg hstack] at h
      by_cases hvis : id ∈ st.visited
      · rw [if_pos hvis] at h
        obtain ⟨rfl, rfl⟩ : r = false ∧ st' = st := by
          have := Option.some.inj h
          exact ⟨congrArg Prod.fst this |>.symm, congrArg Prod.snd this |>.symm⟩
        exact ⟨fun k => Or.inl rfl, fun w hw => hw, rfl⟩
      · rw [if_neg hvis] at h
        simp only at h
        cases hget : aget id st.pm with
        | none =>
          rw [hget] at h
          obtain ⟨rfl, rfl⟩ : r = false ∧
              st' = { st with visited := id :: st.visited } := by
            have := Option.some.inj h
            exact ⟨congrArg Prod.fst this |>.symm, congrArg Prod.snd this |>.symm⟩
          exact ⟨fun k => Or.inl rfl, fun w hw => hw, rfl⟩
        | some po =>
          cases po with
          | none =>
            rw [hget] at h
            obtain ⟨rfl, rfl⟩ : r = false ∧
                st' = { st with visited := id :: st.visited } := by
              have := Option.some.inj h
              exact ⟨congrArg Prod.fst this |>.symm,
                congrArg Prod.snd this |>.symm⟩
            exact ⟨fun k => Or.inl rfl, fun w hw => hw, rfl⟩
          | some p =>
            rw [hget] at h
            dsimp only at h
            by_cases hp : p = ""
            · rw [if_pos hp] at h
              obtain ⟨rfl, rfl⟩ : r = false ∧
                  st' = { st with visited := id :: st.visited } := by
                have := Option.some.inj h
                exact ⟨congrArg Prod.fst this |>.symm,
                  congrArg Prod.snd this |>.symm⟩
              exact ⟨fun k => Or.inl rfl, fun w hw => hw, rfl⟩
            · rw [if_neg hp] at h
              cases hrec : dfs fuel { st with visited := id :: st.visited }
                  (id :: stack) p with
              | none => rw [hrec] at h; cases h
              | some pr =>
                obtain ⟨r₂, st₂⟩ := pr
                have hframe := ih _ _ _ _ _ hrec
                rw [hrec] at h
                cases r₂ with
                | true =>
                  obtain ⟨rfl, rfl⟩ : r = false ∧
                      st' = { st₂ with pm := aset id none st₂.pm, warns := id :: st₂.warns } := by
                    have := Option.some.inj h
                    exact ⟨congrArg Prod.fst this |>.symm,
                      congrArg Prod.snd this |>.symm⟩
                  refine ⟨?_, ?_, ?_⟩
                  · intro k
                    by_cases hk : k = id
                    · subst hk
                      exact Or.inr (aget_aset_self _ _ _)
                    · show aget k (aset id none st₂.pm) = _ ∨
                        aget k (aset id none st₂.pm) = some none
                      rw [aget_aset_ne id k none st₂.pm (fun hh => hk hh.symm)]
                      exact hframe.1 k
                  · intro w hw
                    exact List.mem_cons_of_mem _ (hframe.2.1 w hw)
                  · show (aset id none st₂.pm).length = st.pm.length
                    have hid2 : aget id st₂.pm = some (some p) ∨
                        aget id st₂.pm = some none := hframe.1 id |>.imp
                      (fun hh => by rw [hh]; exact hget) (fun hh => hh)
                    rcases hid2 with hid2 | hid2
                    · rw [aset_length_of_aget_some hid2, hframe.2.2]
                    · rw [aset_length_of_aget_some hid2, hframe.2.2]
                | false =>
                  obtain ⟨rfl, rfl⟩ : r = false ∧ st' = st₂ := by
                    have := Option.some.inj h
                    exact ⟨congrArg Prod.fst this |>.symm,
                      congrArg Prod.snd this |>.symm⟩
                  exact hframe

/-- The number of ParentIndex keys not yet seen by the DFS. -/
def unseenK (pm : List (String × Option String)) (l : List String) : Nat :=
  (pm.filter fun e => decide (e.1 ∉ l)).length

/-- Fuel sufficiency for the DFS: every nested call moves a fresh key into
the visited set. -/
theorem dfs_isSome :
    ∀ (fuel : Nat) (st : DfsState) (stack : List String) (id : String),
      unseenK st.pm (st.visited ++ stack) < fuel →
      (dfs fuel st stack id).isSome := by
  intro fuel
  induction fuel with
  | zero => intro st stack id h; omega
  | succ fuel ih =>
    intro st stack id h
    rw [dfs]
    by_cases hstack : id ∈ stack
    · rw [if_pos hstack]; rfl
    · rw [if_neg hstack]
      by_cases hvis : id ∈ st.visited
      · rw [if_pos hvis]; rfl
      · rw [if_neg hvis]
        simp only
        cases hget : aget id st.pm with
        | none => rfl
        | some po =>
          cases po with
          | none => rfl
          | some p =>
            dsimp only
            by_cases hp : p = ""
            · rw [if_pos hp]; rfl
            · rw [if_neg hp]
              have hlt : unseenK st.pm
                  ((id :: st.visited) ++ (id :: stack)) < unseenK st.pm
                    (st.visited ++ stack) := by
                refine filter_length_lt _ _ st.pm ?_ (id, some p)
                  (aget_some_mem hget) ?_ ?_
                · intro e _ hq
                  have hni : e.1 ∉ (id :: st.visited) ++ (id :: stack) :=
                    of_decide_eq_true hq
                  refine decide_eq_true ?_
                  intro hmem
                  refine hni ?_
                  rcases List.mem_append.mp hmem with hl | hr
                  · exact List.mem_append_left _ (List.mem_cons_of_mem _ hl)
                  · exact List.mem_append_right _ (List.mem_cons_of_mem _ hr)
                · refine decide_eq_true ?_
                  intro hmem
                  rcases List.mem_append.mp hmem with hl | hr
                  · exact hvis hl
                  · exact hstack hr
                · refine decide_eq_false ?_
                  intro hmem
                  exact hmem (List.mem_append_left _ (List.mem_cons_self _ _))
              have := ih { st with visited := id :: st.visited }
                (id :: stack) p (by
                  show unseenK st.pm ((id :: st.visited) ++ (id :: stack)) < fuel
                  omega)
              cases hrec : dfs fuel { st with visited := id :: st.visited }
                  (id :: stack) p with
              | none => rw [hrec] at this; cases this
              | some pr =>
                obtain ⟨r₂, st₂⟩ := pr
                cases r₂ with
                | true => rfl
                | false => rfl

/-- One of the pair has been demoted to root, with its warning logged. -/
def DfsDone (a b : String) (st : DfsState) : Prop :=
  (aget a st.pm = some none ∧ a ∈ st.warns) ∨
  (aget b st.pm = some none ∧ b ∈ st.warns)

/-- The mutual cycle is still intact and neither member has been visited. -/
def DfsPair (a b : String) (st : DfsState) : Prop :=
  aget a st.pm = some (some b) ∧ aget b st.pm = some (some a) ∧
  a ∉ st.visited ∧ b ∉ st.visited

theorem dfsDone_pres {a b : String} {fuel : Nat} {st : DfsState}
    {stack : List String} {id : String} {r : Bool} {st' : DfsState}
    (h : dfs fuel st stack id = some (r, st')) (hd : DfsDone a b st) :
    DfsDone a b st' := by
  have hframe := dfs_frame fuel st stack id r st' h
  rcases hd with ⟨hpm, hw⟩ | ⟨hpm, hw⟩
  · refine Or.inl ⟨?_, hframe.2.1 a hw⟩
    rcases hframe.1 a with he | he
    · rw [he, hpm]
    · exact he
  · refine Or.inr ⟨?_, hframe.2.1 b hw⟩
    rcases hframe.1 b with he | he
    · rw [he, hpm]
    · exact he

/-- The inner call of the pair computation: visiting `y` whose recorded
parent `a` is already on the stack demotes `y` and warns about it. -/
theorem dfs_pair_inner (a y : String) (hane : a ≠ "") :
    ∀ (fuel : Nat) (st : DfsState) (stack : List String),
      aget y st.pm = some (some a) → y ∉ st.visited → y ∉ stack →
      a ∈ stack →
      dfs fuel st stack y = none ∨
      ∃ st', dfs fuel st stack y = some (false, st') ∧
        aget y st'.pm = some none ∧ y ∈ st'.warns := by
  intro fuel st stack hget hyvis hystack hastack
  cases fuel with
  | zero => exact Or.inl rfl
  | succ f =>
    rw [dfs, if_neg hystack, if_neg hyvis]
    dsimp only
    rw [hget]
    dsimp only
    rw [if_neg hane]
    cases f with
    | zero =>
      exact Or.inl rfl
    | succ f' =>
      have hinner :
          dfs (f' + 1) { st with visited := y :: st.visited } (y :: stack) a
            = some (true, { st with visited := y :: st.visited }) := by
        rw [dfs, if_pos (List.mem_cons_of_mem _ hastack)]
      rw [hinner]
      refine Or.inr ⟨_, rfl, ?_, ?_⟩
      · exact aget_aset_self _ _ _
      · exact List.mem_cons_self _ _

/-- The central DFS invariant for a mutual two-node cycle `a ↔ b`: every
call either keeps the pair intact and unvisited, or has already demoted one
of them with a warning; and the very call that enters `a` or `b` while the
pair is intact completes the demotion. -/
theorem dfs_pair (a b : String) (hab : a ≠ b) (hane : a ≠ "")
    (hbne : b ≠ "") :
    ∀ (fuel : Nat) (st : DfsState) (stack : List String) (x : String),
      (DfsDone a b st ∨ DfsPair a b st) → a ∉ stack → b ∉ stack →
      dfs fuel st stack x = none ∨
      ∃ r st', dfs fuel st stack x = some (r, st') ∧
        (DfsDone a b st' ∨ DfsPair a b st') ∧
        ((x = a ∨ x = b) → DfsPair a b st → DfsDone a b st') := by
  intro fuel
  induction fuel with
  | zero => intro st stack x _ _ _; exact Or.inl rfl
  | succ fuel ih =>
    intro st stack x hR hastack hbstack
    rcases hR with hdone | hpair
    · cases h : dfs (fuel + 1) st stack x with
      | none => exact Or.inl rfl
      | some pr =>
        obtain ⟨r, st'⟩ := pr
        refine Or.inr ⟨r, st', rfl, Or.inl (dfsDone_pres h hdone), ?_⟩
        intro _ hpairSt
        rcases hdone with ⟨hpm, _⟩ | ⟨hpm, _⟩
        · rw [hpairSt.1] at hpm
          cases Option.some.inj hpm
        · rw [hpairSt.2.1] at hpm
          cases Option.some.inj hpm
    · by_cases hxa : x = a
      · subst hxa
        rw [dfs, if_neg hastack, if_neg hpair.2.2.1]
        dsimp only
        rw [hpair.1]
        dsimp only
        rw [if_neg hbne]
        have hinner := dfs_pair_inner x b hane fuel
          { st with visited := x :: st.visited } (x :: stack)
          hpair.2.1
          (by
            intro hmem
            rcases List.mem_cons.mp hmem with he | hmem'
            · exact hab he.symm
            · exact hpair.2.2.2 hmem')
          (by
            intro hmem
            rcases List.mem_cons.mp hmem with he | hmem'
            · exact hab he.symm
            · exact hbstack hmem')
          (List.mem_cons_self _ _)
        rcases hinner with hnone | ⟨st₃, heq, hdem, hwarn⟩
        · rw [hnone]
          exact Or.inl rfl
        · rw [heq]
          refine Or.inr ⟨false, st₃, rfl, Or.inl (Or.inr ⟨hdem, hwarn⟩),
            fun _ _ => Or.inr ⟨hdem, hwarn⟩⟩
      · by_cases hxb : x = b
        · subst hxb
          rw [dfs, if_neg hbstack, if_neg hpair.2.2.2]
          dsimp only
          rw [hpair.2.1]
          dsimp only
          rw [if_neg hane]
          have hinner := dfs_pair_inner x a hbne fuel
            { st with visited := x :: st.visited } (x :: stack)
            hpair.1
            (by
              intro hmem
              rcases List.mem_cons.mp hmem with he | hmem'
              · exact hab he
              · exact hpair.2.2.1 hmem')
            (by
              intro hmem
              rcases List.mem_cons.mp hmem with he | hmem'
              · exact hab he
              · exact hastack hmem')
            (List.mem_cons_self _ _)
          rcases hinner with hnone | ⟨st₃, heq, hdem, hwarn⟩
          · rw [hnone]
            exact Or.inl rfl
          · rw [heq]
            refine Or.inr ⟨false, st₃, rfl, Or.inl (Or.inl ⟨hdem, hwarn⟩),
              fun _ _ => Or.inl ⟨hdem, hwarn⟩⟩
        · rw [dfs]
          by_cases hxstack : x ∈ stack
          · rw [if_pos hxstack]
            exact Or.inr ⟨true, st, rfl, Or.inr hpair,
              fun hxor _ => absurd hxor (by
                rintro (rfl | rfl)
                · exact hxa rfl
                · exact hxb rfl)⟩
          · rw [if_neg hxstack]
            by_cases hxvis : x ∈ st.visited
            · rw [if_pos hxvis]
              exact Or.inr ⟨false, st, rfl, Or.inr hpair,
                fun hxor _ => absurd hxor (by
                  rintro (rfl | rfl)
                  · exact hxa rfl
                  · exact hxb rfl)⟩
            · rw [if_neg hxvis]
              dsimp only
              have hpair₁ :
                  DfsPair a b { st with visited := x :: st.visited } :=
                ⟨hpair.1, hpair.2.1,
                  by
                    intro hmem
                    rcases List.mem_cons.mp hmem with he | hmem'
                    · exact hxa he.symm
                    · exact hpair.2.2.1 hmem',
                  by
                    intro hmem
                    rcases List.mem_cons.mp hmem with he | hmem'
                    · exact hxb he.symm
                    · exact hpair.2.2.2 hmem'⟩
              cases hget : aget x st.pm with
              | none =>
                exact Or.inr ⟨false, _, rfl, Or.inr hpair₁,
                  fun hxor _ => absurd hxor (by
                    rintro (rfl | rfl)
                    · exact hxa rfl
                    · exact hxb rfl)⟩
              | some po =>
                cases po with
                | none =>
                  exact Or.inr ⟨false, _, rfl, Or.inr hpair₁,
                    fun hxor _ => absurd hxor (by
                      rintro (rfl | rfl)
                      · exact hxa rfl
                      · exact hxb rfl)⟩
                | some p =>
                  dsimp only
                  by_cases hp : p = ""
                  · rw [if_pos hp]
                    exact Or.inr ⟨false, _, rfl, Or.inr hpair₁,
                      fun hxor _ => absurd hxor (by
                        rintro (rfl | rfl)
                        · exact hxa rfl
                        · exact hxb rfl)⟩
                  · rw [if_neg hp]
                    have hihp := ih { st with visited := x :: st.visited }
                      (x :: stack) p (Or.inr hpair₁)
                      (by
                        intro hmem
                        rcases List.mem_cons.mp hmem with he | hmem'
                        · exact hxa he.symm
                        · exact hastack hmem')
                      (by
                        intro hmem
                        rcases List.mem_cons.mp hmem with he | hmem'
                        · exact hxb he.symm
                        · exact hbstack hmem')
                    rcases hihp with hnone | ⟨r₂, st₂, heq, hR₂, _⟩
                    · rw [hnone]
                      exact Or.inl rfl
                    · rw [heq]
                      cases r₂ with
                      | true =>
                        refine Or.inr ⟨false, _, rfl, ?_, ?_⟩
                        · rcases hR₂ with hdone₂ | hpair₂
                          · refine Or.inl ?_
                            rcases hdone₂ with ⟨hpm, hw⟩ | ⟨hpm, hw⟩
                            · refine Or.inl ⟨?_, List.mem_cons_of_mem _ hw⟩
                              show aget a (aset x none st₂.pm) = some none
                              rw [aget_aset_ne x a none st₂.pm
                                hxa]
                              exact hpm
                            · refine Or.inr ⟨?_, List.mem_cons_of_mem _ hw⟩
                              show aget b (aset x none st₂.pm) = some none
                              rw [aget_aset_ne x b none st₂.pm
                                hxb]
                              exact hpm
                          · refine Or.inr ⟨?_, ?_, hpair₂.2.2.1, hpair₂.2.2.2⟩
                            · show aget a (aset x none st₂.pm) = some (some b)
                              rw [aget_aset_ne x a none st₂.pm
                                hxa]
                              exact hpair₂.1
                            · show aget b (aset x none st₂.pm) = some (some a)
                              rw [aget_aset_ne x b none st₂.pm
                                hxb]
                              exact hpair₂.2.1
                        · intro hxor _
                          exact absurd hxor (by
                            rintro (rfl | rfl)
                            · exact hxa rfl
                            · exact hxb rfl)
                      | false =>
                        exact Or.inr ⟨false, st₂, rfl, hR₂,
                          fun hxor _ => absurd hxor (by
                            rintro (rfl | rfl)
                            · exact hxa rfl
                            · exact hxb rfl)⟩

theorem runDfs_done_pres {a b : String} :
    ∀ (fuel : Nat) (ks : List String) (st st' : DfsState),
      runDfs fuel ks st = some st' → DfsDone a b st → DfsDone a b st' := by
  intro fuel ks
  induction ks with
  | nil =>
    intro st st' h hd
    obtain rfl : st = st' := Option.some.inj h
    exact hd
  | cons k ks ih =>
    intro st st' h hd
    rw [runDfs] at h
    cases hrec : dfs fuel st [] k with
    | none => rw [hrec] at h; cases h
    | some pr =>
      obtain ⟨r, st₁⟩ := pr
      rw [hrec] at h
      exact ih st₁ st' h (dfsDone_pres hrec hd)

/-- Running the DFS over all keys: once the key list contains one of the
mutual-cycle members, the loop ends with one of them demoted and warned. -/
theorem runDfs_pair (a b : String) (hab : a ≠ b) (hane : a ≠ "")
    (hbne : b ≠ "") :
    ∀ (fuel : Nat) (ks : List String) (st st' : DfsState),
      runDfs fuel ks st = some st' →
      (DfsDone a b st ∨ DfsPair a b st) →
      (DfsDone a b st' ∨ DfsPair a b st') ∧
      ((a ∈ ks ∨ b ∈ ks) → DfsDone a b st') := by
  intro fuel ks
  induction ks with
  | nil =>
    intro st st' h hR
    obtain rfl : st = st' := Option.some.inj h
    refine ⟨hR, ?_⟩
    rintro (hmem | hmem) <;> exact absurd hmem (List.not_mem_nil _)
  | cons k ks ih =>
    intro st st' h hR
    rw [runDfs] at h
    cases hrec : dfs fuel st [] k with
    | none => rw [hrec] at h; cases h
    | some pr =>
      obtain ⟨r, st₁⟩ := pr
      rw [hrec] at h
      have hstep := dfs_pair a b hab hane hbne fuel st [] k hR
        (List.not_mem_nil _) (List.not_mem_nil _)
      rcases hstep with hnone | ⟨r₂, st₂, heq, hR₂, himp₂⟩
      · rw [hnone] at hrec; cases hrec
      · rw [heq] at hrec
        obtain ⟨rfl, rfl⟩ : r = r₂ ∧ st₁ = st₂ := by
          have := Option.some.inj hrec
          exact ⟨(congrArg Prod.fst this).symm, (congrArg Prod.snd this).symm⟩
        have hih := ih st₁ st' h hR₂
        refine ⟨hih.1, ?_⟩
        rintro (hma | hmb)
        · rcases List.mem_cons.mp hma with hka | hka'
          · rcases hR with hdone | hpair
            · exact runDfs_done_pres fuel ks st₁ st' h
                (dfsDone_pres heq hdone)
            · exact runDfs_done_pres fuel ks st₁ st' h
                (himp₂ (Or.inl hka.symm) hpair)
          · exact hih.2 (Or.inl hka')
        · rcases List.mem_cons.mp hmb with hkb | hkb'
          · rcases hR with hdone | hpair
            · exact runDfs_done_pres fuel ks st₁ st' h
                (dfsDone_pres heq hdone)
            · exact runDfs_done_pres fuel ks st₁ st' h
                (himp₂ (Or.inr hkb.symm) hpair)
          · exact hih.2 (Or.inr hkb')

/-- `detectAndBreakCycles` terminates: `|pm| + 1` fuel is enough for every
key of the for-loop. -/
theorem runDfs_isSome :
    ∀ (ks : List String) (fuel : Nat) (st : DfsState),
      st.pm.length < fuel → (runDfs fuel ks st).isSome := by
  intro ks
  induction ks with
  | nil => intro fuel st _; rfl
  | cons k ks ih =>
    intro fuel st hlt
    rw [runDfs]
    have hd : (dfs fuel st [] k).isSome := by
      refine dfs_isSome fuel st [] k ?_
      have hle : unseenK st.pm (st.visited ++ []) ≤ st.pm.length :=
        List.length_filter_le _ _
      omega
    cases hrec : dfs fuel st [] k with
    | none => rw [hrec] at hd; cases hd
    | some pr =>
      obtain ⟨r, st₁⟩ := pr
      have hlen : st₁.pm.length = st.pm.length :=
        (dfs_frame fuel st [] k r st₁ hrec).2.2
      exact ih fuel st₁ (by omega)

/-- `aget` on the materialized `id ↦ field` map of a duplicate-free post
list reads back the post's own field. -/
theorem aget_map_pair {α : Type} (f : Post → α) :
    ∀ (posts : List Post), (posts.map Post.id).Nodup →
      ∀ p ∈ posts, aget p.id (posts.map fun q => (q.id, f q)) = some (f p) := by
  intro posts
  induction posts with
  | nil => intro _ p hp; exact absurd hp (List.not_mem_nil _)
  | cons q t ih =>
    intro hnodup p hp
    rw [List.map_cons, List.nodup_cons] at hnodup
    simp only [List.map_cons]
    rw [aget_cons]
    rcases List.mem_cons.mp hp with rfl | hp'
    · rw [if_pos rfl]
    · have hne : q.id ≠ p.id := by
        intro he
        exact hnodup.1 (he ▸ List.mem_map.mpr ⟨p, hp', rfl⟩)
      rw [if_neg hne]
      exact ih hnodup.2 p hp'

/-! Functional-graph facts about `PReach`: parent pointers are
deterministic, so every node reachable from a node on a cycle is itself on
a cycle — hence nothing that reaches a true root can lie on one. -/

theorem preach_snoc {pm : List (String × Option String)} {p q w : String}
    (h : PReach pm p q) (hq : aget q pm = some (some w)) : PReach pm p w := by
  induction h with
  | step h1 => exact PReach.trans h1 (PReach.step hq)
  | trans h1 _ ih => exact PReach.trans h1 (ih hq)

theorem preach_cycle_step {pm : List (String × Option String)} {x y : String}
    (hcyc : PReach pm x x) (hxy : aget x pm = some (some y)) :
    PReach pm y y := by
  cases hcyc with
  | step h1 =>
    have he : x = y := by
      rw [h1] at hxy
      exact Option.some.inj (Option.some.inj hxy)
    subst he
    exact PReach.step h1
  | trans h1 hzx =>
    rename_i z
    have he : z = y := by
      rw [h1] at hxy
      exact Option.some.inj (Option.some.inj hxy)
    subst he
    exact preach_snoc hzx h1

theorem root_no_cycle {pm : List (String × Option String)} {r : String}
    (hroot : aget r pm = some none) : ¬ PReach pm r r := by
  intro h
  cases h with
  | step h1 => rw [hroot] at h1; exact Option.noConfusion (Option.some.inj h1)
  | trans h1 _ => rw [hroot] at h1; exact Option.noConfusion (Option.some.inj h1)

theorem preach_cycle_reach {pm : List (String × Option String)} :
    ∀ {x r : String}, PReach pm x r → PReach pm x x → PReach pm r r := by
  intro x r hxr
  induction hxr with
  | step h1 => intro hcyc; exact preach_cycle_step hcyc h1
  | trans h1 _ ih => intro hcyc; exact ih (preach_cycle_step hcyc h1)

theorem no_cycle_reachable (pm : List (String × Option String))
    (x r : String) (hroot : aget r pm = some none)
    (hxr : x = r ∨ PReach pm x r) : ¬ PReach pm x x := by
  rcases hxr with rfl | hxr
  · exact root_no_cycle hroot
  · intro hcyc
    exact root_no_cycle hroot (preach_cycle_reach hxr hcyc)

/-- C6: for any post list with duplicate-free ids containing two distinct
posts whose relation links form a two-node mutual parent cycle,
`buildRelationTree` terminates — the cycle-breaking loop's fuel provably
suffices, so the `runDfs` traversal completes — at least one of the two
cycle members has its parent pointer forced to null with a warning logged
identifying it, and in the returned tree no node that reaches a root (in
particular no node reachable from a root through `parentId`/`children`
links, which are inverse views of the same pointers) lies on a cycle. -/
theorem c6_cycle_breaking (posts : List Post) (relProp : String)
    (a b : Post)
    (hnodup : (posts.map Post.id).Nodup)
    (ha : a ∈ posts) (hb : b ∈ posts) (hab : a.id ≠ b.id)
    (hane : a.id ≠ "") (hbne : b.id ≠ "")
    (hlinka : getParentIdFromPost a relProp = some b.id)
    (hlinkb : getParentIdFromPost b relProp = some a.id) :
    (runDfs ((nodesInit posts relProp).length + 1)
        ((nodesInit posts relProp).map Prod.fst)
        ⟨nodesInit posts relProp, [], []⟩).isSome ∧
    (∃ x, (x = a.id ∨ x = b.id) ∧
      aget x (buildRelationTree posts relProp).pm = some none ∧
      x ∈ (buildRelationTree posts relProp).warns) ∧
    (∀ x r, aget r (buildRelationTree posts relProp).pm = some none →
      (x = r ∨ PReach (buildRelationTree posts relProp).pm x r) →
      ¬ PReach (buildRelationTree posts relProp).pm x x) := by
  have hidsb : b.id ∈ posts.map Post.id := List.mem_map.mpr ⟨b, hb, rfl⟩
  have hidsa : a.id ∈ posts.map Post.id := List.mem_map.mpr ⟨a, ha, rfl⟩
  have hla : linkValue (posts.map Post.id) relProp a = some b.id := by
    simp only [linkValue, hlinka]
    rw [if_neg hbne, if_pos hidsb]
  have hlb : linkValue (posts.map Post.id) relProp b = some a.id := by
    simp only [linkValue, hlinkb]
    rw [if_neg hane, if_pos hidsa]
  have hgeta : aget a.id (nodesInit posts relProp) = some (some b.id) := by
    have h := aget_map_pair (linkValue (posts.map Post.id) relProp)
      posts hnodup a ha
    rw [hla] at h
    exact h
  have hgetb : aget b.id (nodesInit posts relProp) = some (some a.id) := by
    have h := aget_map_pair (linkValue (posts.map Post.id) relProp)
      posts hnodup b hb
    rw [hlb] at h
    exact h
  have hrunSome : (runDfs ((nodesInit posts relProp).length + 1)
      ((nodesInit posts relProp).map Prod.fst)
      ⟨nodesInit posts relProp, [], []⟩).isSome :=
    runDfs_isSome _ _ _ (Nat.lt_succ_self _)
  obtain ⟨st, hrun⟩ := Option.isSome_iff_exists.mp hrunSome
  have hkeys : a.id ∈ (nodesInit posts relProp).map Prod.fst := by
    simp only [nodesInit, List.map_map]
    exact List.mem_map.mpr ⟨a, ha, rfl⟩
  have hpairInit :
      DfsPair a.id b.id ⟨nodesInit posts relProp, [], []⟩ :=
    ⟨hgeta, hgetb, List.not_mem_nil _, List.not_mem_nil _⟩
  have hdone : DfsDone a.id b.id st :=
    (runDfs_pair a.id b.id hab hane hbne _ _ _ _ hrun
      (Or.inr hpairInit)).2 (Or.inl hkeys)
  have hpm : (buildRelationTree posts relProp).pm = st.pm := by
    simp only [buildRelationTree, detectAndBreakCycles, hrun]
  have hwarns : (buildRelationTree posts relProp).warns = st.warns := by
    simp only [buildRelationTree, detectAndBreakCycles, hrun]
  refine ⟨hrunSome, ?_, ?_⟩
  · rcases hdone with ⟨hpm', hw⟩ | ⟨hpm', hw⟩
    · exact ⟨a.id, Or.inl rfl, by rw [hpm]; exact hpm',
        by rw [hwarns]; exact hw⟩
    · exact ⟨b.id, Or.inr rfl, by rw [hpm]; exact hpm',
        by rw [hwarns]; exact hw⟩
  · intro x r hroot hxr
    exact no_cycle_reachable _ x r hroot hxr

def c6posts : List Post :=
  [⟨"a", "a", none, [("Parent", ["b"])]⟩,
   ⟨"b", "b", none, [("Parent", ["a"])]⟩]

/-- C6 at a concrete two-post mutual cycle linked through the `"Parent"`
relation property. -/
theorem c6_cycle_breaking_witness :
    (c6posts.map Post.id).Nodup ∧
    ((runDfs ((nodesInit c6posts "Parent").length + 1)
        ((nodesInit c6posts "Parent").map Prod.fst)
        ⟨nodesInit c6posts "Parent", [], []⟩).isSome ∧
    (∃ x, (x = "a" ∨ x = "b") ∧
      aget x (buildRelationTree c6posts "Parent").pm = some none ∧
      x ∈ (buildRelationTree c6posts "Parent").warns) ∧
    (∀ x r, aget r (buildRelationTree c6posts "Parent").pm = some none →
      (x = r ∨ PReach (buildRelationTree c6posts "Parent").pm x r) →
      ¬ PReach (buildRelationTree c6posts "Parent").pm x x)) :=
  ⟨by decide,
   c6_cycle_breaking c6posts "Parent"
     ⟨"a", "a", none, [("Parent", ["b"])]⟩
     ⟨"b", "b", none, [("Parent", ["a"])]⟩
     (by decide) (by decide) (by decide) (by decide) (by decide) (by decide)
     (by decide) (by decide)⟩

end Notiondown
